import Mathlib

/-!
# A verification development for the SharkDB storage stack

This file gives a shallow embedding, in Lean 4, of the storage core of the
SharkDB repository: the ordered key/value engine interface
(`src/storage/engine.rs`), the in-memory engine (`src/storage/memory.rs`),
the append-only-log disk engine (`src/storage/disk.rs`), the
order-preserving key codec (`src/storage/keycode.rs`) and the MVCC
transaction layer (`src/storage/mvcc.rs`), together with theorems settling
the specification's claims about them.

Bytes are modelled as `Nat` (well-formedness hypotheses bound them by 256
where it matters), byte strings as `List Nat`, `u64` values as `Nat`
bounded by `2 ^ 64`, and the `BTreeMap` instances used by both engines as
sorted association lists ordered by the lexicographic byte order that Rust
imposes on `Vec<u8>`.
-/

namespace SharkDB

/-- Strict lexicographic order on byte strings, exactly the `Ord` instance
Rust uses for `Vec<u8>`: compare elementwise, a strict prefix is smaller. -/
def lexLt : List Nat → List Nat → Bool
  | [], [] => false
  | [], _ :: _ => true
  | _ :: _, [] => false
  | a :: as, b :: bs => if a < b then true else if b < a then false else lexLt as bs

/-! ## Sorted-map model of `BTreeMap<Vec<u8>, α>`

Both engines and the disk engine's `keydir` are Rust `BTreeMap`s keyed by
byte vectors.  We model them as association lists sorted strictly
ascending by `lexLt`; `insert`, `remove`, `get` and `range` translate to
the operations below.  `Smap.range` keeps the entries in ascending key
order, as the `BTreeMap::range` iterator does. -/

/-- Association list model of an ordered map from byte keys to `α`. -/
abbrev Smap (α : Type) : Type := List (List Nat × α)

/-- The sortedness invariant `BTreeMap` maintains: keys strictly ascending. -/
abbrev Smap.Sorted {α : Type} (m : Smap α) : Prop :=
  List.Pairwise (fun a b => lexLt a.1 b.1 = true) m

/-- `BTreeMap::get`. -/
def Smap.get? {α : Type} : Smap α → List Nat → Option α
  | [], _ => none
  | (k', v) :: rest, k => if k = k' then some v else Smap.get? rest k

/-- `BTreeMap::insert`, keeping the list sorted. -/
def Smap.insert {α : Type} (k : List Nat) (v : α) : Smap α → Smap α
  | [] => [(k, v)]
  | (k', v') :: rest =>
    if lexLt k k' then (k, v) :: (k', v') :: rest
    else if k = k' then (k, v) :: rest
    else (k', v') :: Smap.insert k v rest

/-- `BTreeMap::remove`. -/
def Smap.erase {α : Type} (k : List Nat) : Smap α → Smap α
  | [] => []
  | (k', v') :: rest => if k = k' then rest else (k', v') :: Smap.erase k rest

/-- A bound of a Rust `range` expression over byte-string keys. -/
inductive KBound : Type
  | incl (k : List Nat)
  | excl (k : List Nat)
  | unbounded

/-- Whether key `k` is admitted below/at the upper bound `b`. -/
def KBound.leTop (b : KBound) (k : List Nat) : Bool :=
  match b with
  | .incl u => !lexLt u k
  | .excl u => lexLt k u
  | .unbounded => true

/-- Whether key `k` is admitted above/at the lower bound `b`. -/
def KBound.geBot (b : KBound) (k : List Nat) : Bool :=
  match b with
  | .incl l => !lexLt k l
  | .excl l => lexLt l k
  | .unbounded => true

/-- `BTreeMap::range` on the non-panicking path (bounds not inverted, or
an empty map), in ascending key order: the entries of the sorted list
whose keys fall within the bounds.  The eager panic `BTreeMap::range`
raises on an inverted range over a non-empty map is modelled separately
by `memScanChecked`. -/
def Smap.range {α : Type} (m : Smap α) (lo hi : KBound) : List (List Nat × α) :=
  m.filter (fun e => lo.geBot e.1 && hi.leTop e.1)

/-! ## Engine interface (`src/storage/engine.rs`)

The memory engine (`src/storage/memory.rs`) stores its data directly in a
`BTreeMap<Vec<u8>, Vec<u8>>`, so its `set`/`get`/`delete`/`scan` are the
`Smap` operations themselves.  `scan_prefix` is the trait's default
method: scan `[prefix, bound_prefix)` where `bound_prefix` is the prefix
with its last byte incremented (`*last += 1` on a `u8`: a debug build
panics on overflow, a release build wraps modulo 256, and the resulting
inverted range then makes `BTreeMap::range` itself panic on a non-empty
map).  `memScan`/`memScanPrefix` below are the range filter of the
non-panicking path; `memScanChecked`/`memScanPrefixChecked` make the
`BTreeMap::range` panic explicit as `none`. -/

/-- `Vec<u8>` state of the memory engine. -/
abbrev Mem : Type := Smap (List Nat)

def memSet (m : Mem) (k v : List Nat) : Mem := m.insert k v

def memGet (m : Mem) (k : List Nat) : Option (List Nat) := m.get? k

def memDelete (m : Mem) (k : List Nat) : Mem := m.erase k

def memScan (m : Mem) (lo hi : KBound) : List (List Nat × List Nat) :=
  m.range lo hi

/-- The upper-bound key computed by `Engine::scan_prefix`: the prefix with
its last byte incremented as a wrapping `u8`; the empty prefix is left
unchanged (`iter_mut().last()` is `None`). -/
def boundPrefix (p : List Nat) : List Nat :=
  match p.getLast? with
  | none => []
  | some last => p.dropLast ++ [(last + 1) % 256]

/-- `Engine::scan_prefix` (default trait method) on the non-panicking
path: scan from `Included(prefix)` to `Excluded(bound_prefix)`.  When
the wrapped bound is inverted the real call panics instead; that path
is modelled by `memScanPrefixChecked`. -/
def memScanPrefix (m : Mem) (p : List Nat) : List (List Nat × List Nat) :=
  memScan m (.incl p) (.excl (boundPrefix p))

/-- `Engine::scan` over `(Included lo, Excluded hi)` with the panic made
explicit: `BTreeMap::range` checks `start > end` eagerly and panics
when the map is non-empty (an empty map returns an empty iterator
unchecked); `none` models that panic. -/
def memScanChecked (m : Mem) (lo hi : List Nat) :
    Option (List (List Nat × List Nat)) :=
  if lexLt hi lo ∧ m ≠ [] then none
  else some (memScan m (.incl lo) (.excl hi))

/-- `Engine::scan_prefix` in a release build: compute `bound_prefix`
with the wrapping increment, then call `scan` over
`[prefix, bound_prefix)`; `none` is the `BTreeMap::range` panic on the
wrapped (inverted) bound.  A debug build panics even earlier, at
`*last += 1`, whenever the last byte is `0xFF`. -/
def memScanPrefixChecked (m : Mem) (p : List Nat) :
    Option (List (List Nat × List Nat)) :=
  memScanChecked m p (boundPrefix p)

/-! ## Order-preserving key codec (`src/storage/keycode.rs`)

`Serializer::serialize_u64` writes the 8 big-endian bytes of the value;
`serialize_bytes` escapes every `0x00` byte as `0x00 0xFF` and terminates
with `0x00 0x00`; `serialize_unit_variant` writes the variant index as a
single byte; tuple variants concatenate the tag and the fields in
declaration order.  The deserializer mirrors this: `take_bytes(8)` plus
`u64::from_be_bytes` for integers, `next_bytes` for byte strings. -/

/-- The encoding of one byte inside `serialize_bytes`. -/
def escByte (b : Nat) : List Nat := if b = 0 then [0, 255] else [b]

/-- The escaped body of `serialize_bytes`, without the terminator. -/
def escCore (v : List Nat) : List Nat := (v.map escByte).flatten

/-- `Serializer::serialize_bytes`: escaped body followed by `0x00 0x00`. -/
def escBytes (v : List Nat) : List Nat := escCore v ++ [0, 0]

/-- Fixed-width big-endian bytes of a natural number (most significant
first), as `u64::to_be_bytes` produces for width 8. -/
def beBytes : Nat → Nat → List Nat
  | 0, _ => []
  | n + 1, v => (v / 256 ^ n) % 256 :: beBytes n (v % 256 ^ n)

/-- `Serializer::serialize_u64`. -/
def u64BE (v : Nat) : List Nat := beBytes 8 v

/-- `u64::from_be_bytes`. -/
def beVal (l : List Nat) : Nat := l.foldl (fun acc b => acc * 256 + b) 0

/-- `Deserializer::take_bytes(8)` followed by `u64::from_be_bytes`:
fails when fewer than 8 bytes remain (the Rust slice would be out of
bounds). -/
def readU64 (l : List Nat) : Option (Nat × List Nat) :=
  if l.length < 8 then none
  else some (beVal (l.take 8), l.drop 8)

/-- `Deserializer::next_bytes`: read bytes until the `0x00 0x00`
terminator, turning `0x00 0xFF` back into a literal zero; a `0x00`
followed by anything else, or running out of input, is an error. -/
def nextBytes : List Nat → Option (List Nat × List Nat)
  | [] => none
  | b :: rest =>
    if b = 0 then
      match rest with
      | [] => none
      | c :: rest' =>
        if c = 0 then some ([], rest')
        else if c = 255 then (nextBytes rest').map (fun r => (0 :: r.1, r.2))
        else none
    else (nextBytes rest).map (fun r => (b :: r.1, r.2))

/-- The `MvccKey` enum of `src/storage/mvcc.rs`. -/
inductive MvccKey : Type
  | NextVersion
  | TxnActive (version : Nat)
  | TxnWrite (version : Nat) (key : List Nat)
  | Version (key : List Nat) (version : Nat)
deriving DecidableEq

/-- `MvccKey::encode` through `serialize_key`: variant index byte, then
the fields in declaration order. -/
def MvccKey.encode : MvccKey → List Nat
  | .NextVersion => [0]
  | .TxnActive v => 1 :: u64BE v
  | .TxnWrite v k => 2 :: (u64BE v ++ escBytes k)
  | .Version k v => 3 :: (escBytes k ++ u64BE v)

/-- `MvccKey::decode` through `deserialize_key`: dispatch on the variant
index byte; trailing input is ignored, exactly as the Rust deserializer
leaves it unread. -/
def MvccKey.decode (data : List Nat) : Option MvccKey :=
  match data with
  | 0 :: _ => some .NextVersion
  | 1 :: rest => (readU64 rest).map (fun r => .TxnActive r.1)
  | 2 :: rest =>
    (readU64 rest).bind (fun r =>
      (nextBytes r.2).map (fun s => .TxnWrite r.1 s.1))
  | 3 :: rest =>
    (nextBytes rest).bind (fun s =>
      (readU64 s.2).map (fun r => .Version s.1 r.1))
  | _ => none

/-- The `MvccKeyPrefix` enum of `src/storage/mvcc.rs`. -/
inductive MvccKeyPrefix : Type
  | NextVersion
  | TxnActive
  | TxnWrite (version : Nat)
  | Version (key : List Nat)

/-- `MvccKeyPrefix::encode`. -/
def MvccKeyPrefix.encode : MvccKeyPrefix → List Nat
  | .NextVersion => [0]
  | .TxnActive => [1]
  | .TxnWrite v => 2 :: u64BE v
  | .Version k => 3 :: escBytes k

/-- The variant index `serialize_unit_variant` writes for each `MvccKey`
constructor. -/
def MvccKey.tag : MvccKey → Nat
  | .NextVersion => 0
  | .TxnActive _ => 1
  | .TxnWrite _ _ => 2
  | .Version _ _ => 3

/-- Two logical keys of the same variant shape (the spec's side condition
for the order-preservation property). -/
def MvccKey.sameShape (a b : MvccKey) : Bool := a.tag = b.tag

/-- The logical tuple order the spec asserts the encoding preserves:
fields compared left to right, `u64`s numerically, byte strings
lexicographically. -/
def MvccKey.tupleLt : MvccKey → MvccKey → Bool
  | .NextVersion, .NextVersion => false
  | .TxnActive v1, .TxnActive v2 => v1 < v2
  | .TxnWrite v1 k1, .TxnWrite v2 k2 =>
    v1 < v2 || (v1 = v2 && lexLt k1 k2)
  | .Version k1 v1, .Version k2 v2 =>
    lexLt k1 k2 || (k1 = k2 && v1 < v2)
  | _, _ => false

/-- The full logical order on `MvccKey`: variant tag first, then the
tuple order.  The codec's purpose is that `encode` carries this order to
`lexLt` on the byte strings. -/
def MvccKey.keyLt (a b : MvccKey) : Bool :=
  if a.tag < b.tag then true
  else if b.tag < a.tag then false
  else a.tupleLt b

/-- Well-typedness of a logical key: versions fit in a `u64` and key
bytes fit in a `u8`. -/
def MvccKey.Wf : MvccKey → Prop
  | .NextVersion => True
  | .TxnActive v => v < 2 ^ 64
  | .TxnWrite v k => v < 2 ^ 64 ∧ ∀ b ∈ k, b < 256
  | .Version k v => v < 2 ^ 64 ∧ ∀ b ∈ k, b < 256

instance : DecidablePred MvccKey.Wf := by
  intro k
  cases k <;> simp only [MvccKey.Wf] <;> infer_instance

/-- The byte prefix `MvccTransaction::scan_prefix` computes for a user
key `k`: encode `MvccKeyPrefix::Version(k)` and truncate the trailing two
terminator bytes (`enc_prefix.truncate(enc_prefix.len() - 2)`). -/
def versionScanPrefix (k : List Nat) : List Nat :=
  (MvccKeyPrefix.Version k).encode.take
    ((MvccKeyPrefix.Version k).encode.length - 2)

/-! ## The `bincode` value codec used by the MVCC layer

Values stored under `Version(..)` keys are `bincode::serialize` of an
`Option<Vec<u8>>` (1.x default configuration: a one-byte tag, then a
little-endian `u64` length and the raw bytes); the `NextVersion` counter
is a bare little-endian `u64`. -/

/-- Fixed-width little-endian bytes (least significant first). -/
def leBytes : Nat → Nat → List Nat
  | 0, _ => []
  | n + 1, v => v % 256 :: leBytes n (v / 256)

def u64LE (v : Nat) : List Nat := leBytes 8 v

def leVal (l : List Nat) : Nat := l.foldr (fun b acc => acc * 256 + b) 0

/-- `bincode::serialize::<Option<Vec<u8>>>`. -/
def bincodeOptEnc : Option (List Nat) → List Nat
  | none => [0]
  | some v => 1 :: (u64LE v.length ++ v)

/-- `bincode::deserialize::<Option<Vec<u8>>>`: a one-byte tag (0 =
`None`, 1 = `Some`), then a little-endian `u64` length and the bytes. -/
def bincodeOptDec : List Nat → Option (Option (List Nat))
  | [] => none
  | t :: rest =>
    if t = 0 then some none
    else if t = 1 then
      if rest.length < 8 then none
      else
        if (rest.drop 8).length < leVal (rest.take 8) then none
        else some (some ((rest.drop 8).take (leVal (rest.take 8))))
    else none

/-- `bincode::serialize::<u64>`. -/
def bincodeU64Enc (v : Nat) : List Nat := u64LE v

/-- `bincode::deserialize::<u64>`. -/
def bincodeU64Dec (l : List Nat) : Option Nat :=
  if l.length < 8 then none else some (leVal (l.take 8))

/-! ## Disk engine (`src/storage/disk.rs`)

A bitcask-style engine: an append-only log file (modelled as the list of
its bytes) plus the in-memory `keydir` mapping each live key to the
offset and length of its value inside the log.  A log record is
`key_len : u32 BE | value_len : i32 BE (-1 = tombstone) | key | value`. -/

/-- The bytes `Log::write_entry` appends for one record. -/
def encEntry (key : List Nat) (value : Option (List Nat)) : List Nat :=
  beBytes 4 key.length ++
    (match value with
     | none => [255, 255, 255, 255]
     | some v => beBytes 4 v.length) ++
    key ++ value.getD []

/-- `DiskEngine`: the in-memory index and the log file contents. -/
structure DiskEngine : Type where
  keydir : Smap (Nat × Nat)
  log : List Nat
deriving DecidableEq

/-- `Log::read_value`: seek and `read_exact` (`none` when the range runs
past the end of the file). -/
def readValue (log : List Nat) (offset size : Nat) : Option (List Nat) :=
  if offset + size ≤ log.length then some ((log.drop offset).take size)
  else none

/-- `DiskEngine::set`: append a record, then point the index at the
value bytes just written. -/
def diskSet (d : DiskEngine) (key value : List Nat) : DiskEngine :=
  { keydir := d.keydir.insert key
      (d.log.length + (8 + key.length + value.length) - value.length,
        value.length),
    log := d.log ++ encEntry key (some value) }

/-- `DiskEngine::delete`: append a tombstone and drop the index entry. -/
def diskDelete (d : DiskEngine) (key : List Nat) : DiskEngine :=
  { keydir := d.keydir.erase key,
    log := d.log ++ encEntry key none }

/-- `DiskEngine::get`: index lookup plus one read from the log (the
outer `none` models an I/O error on a corrupt index). -/
def diskGet (d : DiskEngine) (key : List Nat) : Option (Option (List Nat)) :=
  match d.keydir.get? key with
  | some e => (readValue d.log e.1 e.2).map some
  | none => some none

/-- The pairs a full `DiskEngine::scan` materializes: every `keydir`
entry in key order with its value read back from the log. -/
def diskSnapshot (d : DiskEngine) : Option (List (List Nat × List Nat)) :=
  d.keydir.mapM (fun e => (readValue d.log e.2.1 e.2.2).map
    (fun v => (e.1, v)))

/-- `Log::read_entry`: parse the two length fields and the key at
`offset`, failing (as `read_exact` does) when the file is too short.
The `value_len` field is an `i32` read from its big-endian bytes. -/
def readEntry (file : List Nat) (offset : Nat) :
    Option (List Nat × Int) :=
  if offset + 8 ≤ file.length then
    let key_size := beVal ((file.drop offset).take 4)
    let vraw := beVal ((file.drop (offset + 4)).take 4)
    let value_size : Int :=
      if vraw < 2 ^ 31 then (vraw : Int) else (vraw : Int) - 2 ^ 32
    if offset + 8 + key_size ≤ file.length then
      some ((file.drop (offset + 8)).take key_size, value_size)
    else none
  else none

/-- The loop of `Log::build_keydir`, with explicit fuel (each iteration
consumes at least one record, so `file.length + 1` steps suffice). -/
def buildKeydirLoop :
    Nat → List Nat → Nat → Smap (Nat × Nat) → Option (Smap (Nat × Nat))
  | 0, _, _, _ => none
  | fuel + 1, file, offset, kd =>
    if offset ≥ file.length then some kd
    else
      match readEntry file offset with
      | none => none
      | some (key, vsz) =>
        if vsz = -1 then
          buildKeydirLoop fuel file (offset + 8 + key.length) (kd.erase key)
        else
          buildKeydirLoop fuel file
            (offset + 8 + key.length + (vsz.emod (2 ^ 64)).toNat)
            (kd.insert key
              (offset + 8 + key.length, (vsz.emod (2 ^ 32)).toNat))

/-- `Log::build_keydir`: replay the whole file from offset 0. -/
def buildKeydir (file : List Nat) : Option (Smap (Nat × Nat)) :=
  buildKeydirLoop (file.length + 1) file 0 []

/-- `DiskEngine::compact`: iterate the live index in key order, copy
each value as a fresh record into a new log, and rebuild the index with
the new offsets. -/
def diskCompact (d : DiskEngine) : Option DiskEngine :=
  (d.keydir.foldl
      (fun acc e =>
        acc.bind (fun p =>
          (readValue d.log e.2.1 e.2.2).map (fun value =>
            DiskEngine.mk
              (p.keydir.insert e.1
                (p.log.length + (8 + e.1.length + value.length) - e.2.2,
                  e.2.2))
              (p.log ++ encEntry e.1 (some value)))))
      (some (DiskEngine.mk [] [])))

/-- A `set`/`delete` command applied to an engine (the alphabet of the
log-replay claim). -/
inductive DOp : Type
  | set (key value : List Nat)
  | del (key : List Nat)

def applyDiskOp (d : DiskEngine) : DOp → DiskEngine
  | .set k v => diskSet d k v
  | .del k => diskDelete d k

def applyDiskOps (d : DiskEngine) (ops : List DOp) : DiskEngine :=
  ops.foldl applyDiskOp d

def applyMemOp (m : Mem) : DOp → Mem
  | .set k v => memSet m k v
  | .del k => memDelete m k

def applyMemOps (m : Mem) (ops : List DOp) : Mem :=
  ops.foldl applyMemOp m

/-- The log file produced by a sequence of operations on a fresh
engine. -/
def logOf : List DOp → List Nat
  | [] => []
  | .set k v :: rest => encEntry k (some v) ++ logOf rest
  | .del k :: rest => encEntry k none ++ logOf rest

/-- What one replayed record does to the index, given the record's start
offset (the replay analogue of the engine's own bookkeeping). -/
def applyRec (kd : Smap (Nat × Nat)) (off : Nat) : DOp → Smap (Nat × Nat)
  | .set k v => kd.insert k (off + 8 + k.length, v.length)
  | .del k => kd.erase k

/-- Folding `applyRec` over a command list, advancing the offset by each
record's size. -/
def replayFold (kd : Smap (Nat × Nat)) (off : Nat) :
    List DOp → Smap (Nat × Nat)
  | [] => kd
  | op :: rest =>
    replayFold (applyRec kd off op)
      (off + (match op with
        | .set k v => 8 + k.length + v.length
        | .del k => 8 + k.length)) rest

/-- Length bounds a record's fields must satisfy to round-trip through
the `u32`/`i32` header fields. -/
def DOp.Wf : DOp → Prop
  | .set k v => k.length < 2 ^ 32 ∧ v.length < 2 ^ 31
  | .del k => k.length < 2 ^ 32

instance : DecidablePred DOp.Wf := by
  intro o
  cases o with
  | set k v => exact inferInstanceAs (Decidable (_ ∧ _))
  | del k => exact inferInstanceAs (Decidable (_ < _))

/-! ## MVCC transactions (`src/storage/mvcc.rs`)

A transaction holds an immutable `TransactionState`; every operation
locks the underlying engine (here passed and returned explicitly) and
works through encoded `MvccKey`s.  Fallible operations return `Option`
(`none` models a propagated `Error` other than `WriteConflict`). -/

/-- `TransactionState`: the version assigned at begin and the set of
versions active at begin (modelled as the list scanned at begin;
only membership is ever consulted). -/
structure TxState : Type where
  version : Nat
  active : List Nat

/-- `TransactionState::is_visible`. -/
def TxState.isVisible (s : TxState) (v : Nat) : Bool :=
  if s.active.contains v then false else v ≤ s.version

/-- The loop body of `MvccTransaction::get`: first entry (in the reversed
scan order) whose version is visible; its value is `bincode`-decoded.
A malformed key or value is an error (`none`). -/
def txGetLoop (s : TxState) : List (List Nat × List Nat) → Option (Option (List Nat))
  | [] => some none
  | (k, v) :: rest =>
    match MvccKey.decode k with
    | some (.Version _ ver) =>
      if s.isVisible ver then
        match bincodeOptDec v with
        | some payload => some payload
        | none => none
      else txGetLoop s rest
    | _ => none

/-- `MvccTransaction::get`: scan `Version(key, 0) ..= Version(key,
T.version)` in reverse and return the first visible entry's payload. -/
def txGet (m : Mem) (s : TxState) (key : List Nat) : Option (Option (List Nat)) :=
  txGetLoop s
    ((memScan m (.incl (MvccKey.Version key 0).encode)
      (.incl (MvccKey.Version key s.version).encode)).reverse)

/-- The lower version bound of the conflict check in
`MvccTransaction::write_inner`: the minimum active version, or
`T.version + 1` when the active set is empty. -/
def TxState.writeLo (s : TxState) : Nat :=
  match s.active.foldr
      (fun x acc =>
        match acc with
        | none => some x
        | some y => some (Nat.min x y)) none with
  | none => s.version + 1
  | some m => m

/-- Result of `write_inner`: the updated engine, a `WriteConflict`, or
another error. -/
inductive WriteResult : Type
  | ok (m : Mem)
  | conflict
  | err
deriving DecidableEq

/-- The two writes `write_inner` performs once the conflict check has
passed: the `TxnWrite` marker (empty value), then the `Version` record
holding the `bincode`-encoded optional payload. -/
def txWriteApply (m : Mem) (s : TxState) (key : List Nat)
    (value : Option (List Nat)) : Mem :=
  memSet (memSet m (MvccKey.TxnWrite s.version key).encode [])
    (MvccKey.Version key s.version).encode (bincodeOptEnc value)

/-- `MvccTransaction::write_inner`: scan `Version(key, lo) ..=
Version(key, u64::MAX)`, inspect only the last (greatest) entry; if it
exists and is not visible, fail with `WriteConflict`; otherwise record
the write. -/
def txWriteInner (m : Mem) (s : TxState) (key : List Nat)
    (value : Option (List Nat)) : WriteResult :=
  match (memScan m (.incl (MvccKey.Version key s.writeLo).encode)
      (.incl (MvccKey.Version key (2 ^ 64 - 1)).encode)).getLast? with
  | some (k, _) =>
    match MvccKey.decode k with
    | some (.Version _ ver) =>
      if s.isVisible ver then .ok (txWriteApply m s key value)
      else .conflict
    | _ => .err
  | none => .ok (txWriteApply m s key value)

/-- `MvccTransaction::set`. -/
def txSet (m : Mem) (s : TxState) (key value : List Nat) : WriteResult :=
  txWriteInner m s key (some value)

/-- `MvccTransaction::delete` (a logical delete writes a `None`
payload). -/
def txDelete (m : Mem) (s : TxState) (key : List Nat) : WriteResult :=
  txWriteInner m s key none

/-- The loop of `MvccTransaction::begin`'s `scan_active`: every entry
under the `TxnActive` prefix must decode to `TxnActive(v)`. -/
def scanActiveLoop : List (List Nat × List Nat) → Option (List Nat)
  | [] => some []
  | (k, _) :: rest =>
    match MvccKey.decode k with
    | some (.TxnActive v) => (scanActiveLoop rest).map (fun l => v :: l)
    | _ => none

/-- `MvccTransaction::begin`: read (or default) the `NextVersion`
counter, store its successor, snapshot the active set, mark this version
active. -/
def txBegin (m : Mem) : Option (Mem × TxState) :=
  (match memGet m MvccKey.NextVersion.encode with
    | some bytes => bincodeU64Dec bytes
    | none => some 1).bind fun nv =>
    let m1 := memSet m MvccKey.NextVersion.encode (bincodeU64Enc (nv + 1))
    (scanActiveLoop (memScanPrefix m1 MvccKeyPrefix.TxnActive.encode)).map
      fun active =>
        (memSet m1 (MvccKey.TxnActive nv).encode [], TxState.mk nv active)

/-- `MvccTransaction::commit`: delete every key under the transaction's
`TxnWrite` prefix, then its `TxnActive` marker. -/
def txCommit (m : Mem) (s : TxState) : Mem :=
  memDelete
    (((memScanPrefix m (MvccKeyPrefix.TxnWrite s.version).encode).map
        Prod.fst).foldl (fun acc k => memDelete acc k) m)
    (MvccKey.TxnActive s.version).encode

/-- The key-collection loop of `MvccTransaction::rollback`: each entry
under the `TxnWrite` prefix contributes the matching `Version` key and
the marker itself; any other key shape is an error. -/
def rollbackKeys (s : TxState) :
    List (List Nat × List Nat) → Option (List (List Nat))
  | [] => some []
  | (k, _) :: rest =>
    match MvccKey.decode k with
    | some (.TxnWrite _ raw) =>
      (rollbackKeys s rest).map
        (fun ks => (MvccKey.Version raw s.version).encode :: k :: ks)
    | _ => none

/-- `MvccTransaction::rollback`: scan the `TxnWrite(version)` prefix
first — `none` models a panic inside `scan_prefix` (for a version whose
low byte is `0xFF`, a debug build panics at the increment and a release
build inside `BTreeMap::range` on a non-empty engine), in which case
nothing is deleted and the call never returns `Ok` — then delete the
collected keys and the `TxnActive` marker. -/
def txRollback (m : Mem) (s : TxState) : Option Mem :=
  (memScanPrefixChecked m (MvccKeyPrefix.TxnWrite s.version).encode).bind
    fun entries =>
      (rollbackKeys s entries).map
        fun ks =>
          memDelete (ks.foldl (fun acc k => memDelete acc k) m)
            (MvccKey.TxnActive s.version).encode

/-! ## Well-formedness of MVCC engine states -/

/-- An engine entry is well-formed when its key is the encoding of a
well-typed `MvccKey` and, for `Version` records, its value decodes as a
`bincode` optional payload. -/
def entryWf (e : List Nat × List Nat) : Prop :=
  match MvccKey.decode e.1 with
  | none => False
  | some mk =>
    mk.Wf ∧ e.1 = mk.encode ∧
      (match mk with
       | .Version _ _ => (bincodeOptDec e.2).isSome = true
       | _ => True)

instance : DecidablePred entryWf := by
  intro e
  unfold entryWf
  cases hd : MvccKey.decode e.1 with
  | none => exact inferInstance
  | some mk =>
    cases mk with
    | NextVersion => exact inferInstance
    | TxnActive v => exact inferInstance
    | TxnWrite v k => exact inferInstance
    | Version k v => exact inferInstance

/-- A well-formed MVCC engine state: sorted, with every entry
well-formed. -/
def WfMem (m : Mem) : Prop := m.Sorted ∧ ∀ e ∈ m, entryWf e

instance : DecidablePred WfMem := by
  intro m
  unfold WfMem
  infer_instance

/-- The spec's visible-version set for a key: versions up to
`T.version` that are visible and have a stored `Version` record. -/
def specVisibleVersions (m : Mem) (s : TxState) (key : List Nat) : List Nat :=
  (List.range (s.version + 1)).filter
    (fun v => s.isVisible v && (m.get? (MvccKey.Version key v).encode).isSome)

/-- Maximum of a list of naturals, `none` when empty. -/
def listMax? (l : List Nat) : Option Nat :=
  l.foldr
    (fun x acc =>
      match acc with
      | none => some x
      | some y => some (Nat.max x y)) none

/-- The result claim C1 asserts for `get`, written from the spec: the
payload committed by the greatest-versioned visible writer, absent when
there is none or it wrote a tombstone. -/
def specSnapshotGet (m : Mem) (s : TxState) (key : List Nat) :
    Option (List Nat) :=
  match listMax? (specVisibleVersions m s key) with
  | none => none
  | some w =>
    match m.get? (MvccKey.Version key w).encode with
    | none => none
    | some bytes => (bincodeOptDec bytes).getD none

/-- The version stored in an encoded `Version` key (0 for any other
key); a bookkeeping helper for stating lemmas about scans. -/
def versionOf (ek : List Nat) : Nat :=
  match MvccKey.decode ek with
  | some (.Version _ v) => v
  | _ => 0

/-- The versions of the `Version(key, v)` records stored in the engine
with `v ≥ lo`; the entries `write_inner`'s conflict scan ranges over. -/
def storedVersions (m : Mem) (key : List Nat) (lo : Nat) : List Nat :=
  m.filterMap (fun e =>
    match MvccKey.decode e.1 with
    | some (.Version k v) => if k = key ∧ lo ≤ v then some v else none
    | _ => none)

/-- The failure condition claim C2 states for the conflict check: the
greatest-versioned `Version(key, ·)` record at or above `writeLo` exists
and is not visible to the transaction. -/
def specWriteConflict (m : Mem) (s : TxState) (key : List Nat) : Bool :=
  match listMax? (storedVersions m key s.writeLo) with
  | none => false
  | some w => !s.isVisible w

/-- Extract the updated engine from a successful write (test harness for
the concrete scenarios). -/
def writeOk : WriteResult → Option Mem
  | .ok m => some m
  | _ => none

/-- The `scan_prefix` semantics asserted by the specification (§4.A),
written from the spec's words for comparison with the code's
`memScanPrefix`: scan `[p, succ(p))` where `succ(p)` increments the last
byte of `p` by one, and an overflowing increment makes the upper bound
"out of range", i.e. the scan runs to the end of the key space. -/
def scanPrefixSpec (m : Mem) (p : List Nat) : List (List Nat × List Nat) :=
  match p.getLast? with
  | none => memScan m (.incl p) .unbounded
  | some b =>
    if b = 255 then memScan m (.incl p) .unbounded
    else memScan m (.incl p) (.excl (p.dropLast ++ [b + 1]))


/-- The refinement relation between a disk engine and the memory
engine: the index is sorted, every index entry points at an in-bounds
slice of the log file, and the memory map is exactly the index with
each entry's value slice read back from the log. -/
def diskMemRel (d : DiskEngine) (m : Mem) : Prop :=
  d.keydir.Sorted ∧
  (∀ e ∈ d.keydir, e.2.1 + e.2.2 ≤ d.log.length) ∧
  m = d.keydir.map (fun e => (e.1, (d.log.drop e.2.1).take e.2.2))

/-! # Theorems

Everything below is proof: first the general lemma library about the
definitions above, then one theorem (with witness or counterexample where
required) per specification claim. -/

theorem lexLt_irrefl (a : List Nat) : lexLt a a = false := by
  induction a with
  | nil => rfl
  | cons x xs ih => simp [lexLt, ih]

theorem lexLt_trichot (a b : List Nat) :
    lexLt a b = true ∨ a = b ∨ lexLt b a = true := by
  induction a generalizing b with
  | nil => cases b <;> simp [lexLt]
  | cons x xs ih =>
    cases b with
    | nil => simp [lexLt]
    | cons y ys =>
      rcases Nat.lt_trichotomy x y with h | h | h
      · left; simp [lexLt, h]
      · subst h
        rcases ih ys with h' | h' | h'
        · left; simp [lexLt, h']
        · right; left; simp [h']
        · right; right; simp [lexLt, h']
      · right; right; simp [lexLt, h]

theorem lexLt_asymm {a b : List Nat} (h : lexLt a b = true) : lexLt b a = false := by
  induction a generalizing b with
  | nil =>
    cases b with
    | nil => simp [lexLt] at h
    | cons y ys => simp [lexLt]
  | cons x xs ih =>
    cases b with
    | nil => simp [lexLt] at h
    | cons y ys =>
      simp only [lexLt] at h ⊢
      rcases Nat.lt_trichotomy x y with h' | h' | h'
      · simp [h', Nat.not_lt.mpr (Nat.le_of_lt h')]
      · subst h'
        simp only [Nat.lt_irrefl, if_false] at h ⊢
        exact ih h
      · simp [h', Nat.not_lt.mpr (Nat.le_of_lt h')] at h

theorem lexLt_trans {a b c : List Nat} (h₁ : lexLt a b = true)
    (h₂ : lexLt b c = true) : lexLt a c = true := by
  induction a generalizing b c with
  | nil =>
    cases b with
    | nil => simp [lexLt] at h₁
    | cons y ys =>
      cases c with
      | nil => simp [lexLt] at h₂
      | cons z zs => simp [lexLt]
  | cons x xs ih =>
    cases b with
    | nil => simp [lexLt] at h₁
    | cons y ys =>
      cases c with
      | nil => simp [lexLt] at h₂
      | cons z zs =>
        simp only [lexLt] at h₁ h₂ ⊢
        rcases Nat.lt_trichotomy x y with hxy | hxy | hxy
        · rcases Nat.lt_trichotomy y z with hyz | hyz | hyz
          · simp [Nat.lt_trans hxy hyz]
          · subst hyz; simp [hxy]
          · simp [hyz, Nat.not_lt.mpr (Nat.le_of_lt hyz)] at h₂
        · subst hxy
          rcases Nat.lt_trichotomy x z with hyz | hyz | hyz
          · simp [hyz]
          · subst hyz
            simp only [Nat.lt_irrefl, if_false] at h₁ h₂ ⊢
            exact ih h₁ h₂
          · simp [hyz, Nat.not_lt.mpr (Nat.le_of_lt hyz)] at h₂
        · simp [hxy, Nat.not_lt.mpr (Nat.le_of_lt hxy)] at h₁

/-- If two byte strings agree on a common prefix, comparing them reduces to
comparing the suffixes. -/
theorem lexLt_append_same (c s₁ s₂ : List Nat) :
    lexLt (c ++ s₁) (c ++ s₂) = lexLt s₁ s₂ := by
  induction c with
  | nil => rfl
  | cons x xs ih => simp [lexLt, ih]

/-! ### Map laws for `Smap` -/

theorem Smap.get?_insert {α : Type} (m : Smap α) (k v k') :
    (Smap.insert k v m).get? k' = if k' = k then some v else m.get? k' := by
  induction m with
  | nil =>
    by_cases h : k' = k <;> simp [Smap.insert, Smap.get?, h]
  | cons e rest ih =>
    obtain ⟨ke, ve⟩ := e
    simp only [Smap.insert]
    by_cases h₁ : lexLt k ke
    · by_cases h : k' = k <;> simp [Smap.get?, h₁, h]
    · by_cases h₂ : k = ke
      · subst h₂
        by_cases h : k' = k <;> simp [Smap.get?, h₁, h]
      · by_cases h : k' = k
        · subst h
          simp [Smap.get?, h₁, h₂, ih]
        · by_cases h₃ : k' = ke
          · subst h₃
            simp [Smap.get?, h₁, h₂, h]
          · simp [Smap.get?, h₁, h₂, h₃, ih, h]

/-- Every entry of `insert k v m` is the new binding or an old entry. -/
theorem Smap.mem_insert {α : Type} {m : Smap α} {k : List Nat} {v : α}
    {e : List Nat × α} (h : e ∈ Smap.insert k v m) : e.1 = k ∨ e ∈ m := by
  induction m with
  | nil =>
    simp only [Smap.insert, List.mem_singleton] at h
    left; simp [h]
  | cons e' rest ih =>
    obtain ⟨ke, ve⟩ := e'
    simp only [Smap.insert] at h
    by_cases h₁ : lexLt k ke
    · rw [if_pos h₁] at h
      rcases List.mem_cons.mp h with h | h
      · left; simp [h]
      · right; exact h
    · by_cases h₂ : k = ke
      · rw [if_neg h₁, if_pos h₂] at h
        rcases List.mem_cons.mp h with h | h
        · left; simp [h]
        · right; exact List.mem_cons_of_mem _ h
      · rw [if_neg h₁, if_neg h₂] at h
        rcases List.mem_cons.mp h with h | h
        · right; exact List.mem_cons.mpr (Or.inl h)
        · rcases ih h with h' | h'
          · left; exact h'
          · right; exact List.mem_cons_of_mem _ h'

theorem Smap.sorted_insert {α : Type} {m : Smap α} (hs : m.Sorted)
    (k : List Nat) (v : α) : (Smap.insert k v m).Sorted := by
  induction m with
  | nil => simp [Smap.insert]
  | cons e rest ih =>
    obtain ⟨ke, ve⟩ := e
    obtain ⟨hhead, htail⟩ := List.pairwise_cons.mp hs
    simp only [Smap.insert]
    by_cases h₁ : lexLt k ke
    · rw [if_pos h₁]
      refine List.pairwise_cons.mpr ⟨?_, List.pairwise_cons.mpr ⟨hhead, htail⟩⟩
      intro b hb
      rcases List.mem_cons.mp hb with rfl | h
      · exact h₁
      · exact lexLt_trans h₁ (hhead _ h)
    · by_cases h₂ : k = ke
      · subst h₂
        rw [if_neg h₁, if_pos rfl]
        exact List.pairwise_cons.mpr ⟨hhead, htail⟩
      · rw [if_neg h₁, if_neg h₂]
        refine List.pairwise_cons.mpr ⟨?_, ih htail⟩
        intro b hb
        rcases Smap.mem_insert hb with h | h
        · rw [h]
          rcases lexLt_trichot k ke with h' | h' | h'
          · exact absurd h' h₁
          · exact absurd h' h₂
          · exact h'
        · exact hhead _ h

theorem Smap.mem_erase {α : Type} {m : Smap α} {k : List Nat}
    {e : List Nat × α} (h : e ∈ Smap.erase k m) : e ∈ m := by
  induction m with
  | nil => simp [Smap.erase] at h
  | cons e' rest ih =>
    obtain ⟨ke, ve⟩ := e'
    simp only [Smap.erase] at h
    by_cases h₁ : k = ke
    · rw [if_pos h₁] at h
      exact List.mem_cons_of_mem _ h
    · rw [if_neg h₁] at h
      rcases List.mem_cons.mp h with h | h
      · exact List.mem_cons.mpr (Or.inl h)
      · exact List.mem_cons_of_mem _ (ih h)

theorem Smap.sorted_erase {α : Type} {m : Smap α} (hs : m.Sorted)
    (k : List Nat) : (Smap.erase k m).Sorted := by
  induction m with
  | nil => exact hs
  | cons e rest ih =>
    obtain ⟨ke, ve⟩ := e
    obtain ⟨hhead, htail⟩ := List.pairwise_cons.mp hs
    simp only [Smap.erase]
    by_cases h₁ : k = ke
    · rw [if_pos h₁]; exact htail
    · rw [if_neg h₁]
      exact List.pairwise_cons.mpr ⟨fun b hb => hhead b (Smap.mem_erase hb), ih htail⟩

/-- A key smaller than every key of the map is absent. -/
theorem Smap.get?_eq_none_of_lt {α : Type} {m : Smap α} {k : List Nat}
    (h : ∀ e ∈ m, lexLt k e.1 = true) : m.get? k = none := by
  induction m with
  | nil => rfl
  | cons e rest ih =>
    obtain ⟨ke, ve⟩ := e
    have hne : ¬ k = ke := by
      intro heq
      have := h (ke, ve) (by simp)
      rw [heq] at this
      simp [lexLt_irrefl] at this
    simp only [Smap.get?, if_neg hne]
    exact ih (fun e he => h e (List.mem_cons_of_mem _ he))

theorem Smap.get?_erase {α : Type} {m : Smap α} (hs : m.Sorted)
    (k k' : List Nat) :
    (Smap.erase k m).get? k' = if k' = k then none else m.get? k' := by
  induction m with
  | nil => by_cases h : k' = k <;> simp [Smap.erase, Smap.get?, h]
  | cons e rest ih =>
    obtain ⟨ke, ve⟩ := e
    obtain ⟨hhead, htail⟩ := List.pairwise_cons.mp hs
    simp only [Smap.erase]
    by_cases h₁ : k = ke
    · subst h₁
      by_cases h : k' = k
      · subst h
        rw [if_pos rfl, if_pos rfl]
        exact Smap.get?_eq_none_of_lt (fun e he => hhead e he)
      · rw [if_pos rfl]
        simp [Smap.get?, h]
    · by_cases h : k' = k
      · subst h
        rw [if_neg h₁, if_pos rfl]
        simp [Smap.get?, h₁, ih htail]
      · by_cases h₂ : k' = ke
        · subst h₂
          rw [if_neg h₁, if_neg h]
          simp [Smap.get?]
        · rw [if_neg h₁, if_neg h]
          simp [Smap.get?, h₂, ih htail, h]

/-- A key absent from the map: erasing it is the identity (this is why
`delete` on a missing key is a no-op). -/
theorem Smap.erase_of_get?_none {α : Type} {m : Smap α} {k}
    (h : m.get? k = none) : Smap.erase k m = m := by
  induction m with
  | nil => rfl
  | cons e rest ih =>
    obtain ⟨ke, ve⟩ := e
    simp only [Smap.get?] at h
    by_cases h₁ : k = ke
    · simp [h₁] at h
    · simp only [Smap.erase, if_neg h₁]
      rw [ih (by simpa [h₁] using h)]

theorem lexLt_nil_right (a : List Nat) : lexLt a [] = false := by
  cases a <;> rfl

/-- `getLast? = some b` lets us split off the last element. -/
theorem dropLast_append_getLast? {p : List Nat} {b : Nat}
    (h : p.getLast? = some b) : p.dropLast ++ [b] = p := by
  induction p with
  | nil => simp at h
  | cons x xs ih =>
    cases xs with
    | nil => simp_all
    | cons y ys =>
      rw [List.getLast?_cons_cons] at h
      simp only [List.dropLast_cons₂, List.cons_append, ih h]

/-- C10: `scan_prefix` on the empty prefix returns no entries: the
computed upper bound is `Excluded([])`, equal to the included lower
bound, and no key is lexicographically below the empty string. -/
theorem engine_scan_prefix_empty (m : Mem) : memScanPrefix m [] = [] := by
  unfold memScanPrefix memScan Smap.range boundPrefix
  simp [KBound.leTop, lexLt_nil_right]

/-- Keys strictly between `q ++ [b]` (inclusive) and `q ++ [b + 1]`
(exclusive) in the lexicographic order are exactly the keys extending
`q ++ [b]`. -/
theorem lexLt_bounds_extends (q : List Nat) (b : Nat) :
    ∀ k : List Nat,
    (lexLt k (q ++ [b]) = false ∧ lexLt k (q ++ [b + 1]) = true) ↔
      (q ++ [b]) <+: k := by
  induction q with
  | nil =>
    intro k
    cases k with
    | nil =>
      constructor
      · rintro ⟨h1, -⟩
        rw [show lexLt [] ([] ++ [b]) = true from rfl] at h1
        cases h1
      · intro h
        have := h.length_le
        simp at this
    | cons c t =>
      simp only [List.nil_append]
      constructor
      · rintro ⟨h1, h2⟩
        rw [show lexLt (c :: t) [b]
            = (if c < b then true else if b < c then false else lexLt t [])
            from rfl, lexLt_nil_right] at h1
        rw [show lexLt (c :: t) [b + 1]
            = (if c < b + 1 then true else if b + 1 < c then false
                else lexLt t []) from rfl, lexLt_nil_right] at h2
        by_cases hcb : c < b
        · rw [if_pos hcb] at h1; cases h1
        · rw [if_neg hcb] at h1
          by_cases hbc : b < c
          · rw [if_neg (by omega)] at h2
            by_cases hb1 : b + 1 < c
            · rw [if_pos hb1] at h2; cases h2
            · rw [if_neg hb1] at h2; cases h2
          · have hceq : c = b := by omega
            subst hceq
            exact ⟨t, rfl⟩
      · rintro ⟨t2, ht⟩
        rw [show ([b] ++ t2 : List Nat) = b :: t2 from rfl] at ht
        injection ht with hb2 ht2
        subst hb2
        subst ht2
        constructor
        · rw [show lexLt (b :: t2) [b]
              = (if b < b then true else if b < b then false else lexLt t2 [])
              from rfl]
          rw [if_neg (lt_irrefl b), if_neg (lt_irrefl b), lexLt_nil_right]
        · rw [show lexLt (b :: t2) [b + 1]
              = (if b < b + 1 then true else if b + 1 < b then false
                  else lexLt t2 []) from rfl]
          rw [if_pos (by omega)]
  | cons a q' ih =>
    intro k
    simp only [List.cons_append]
    cases k with
    | nil =>
      constructor
      · rintro ⟨h1, -⟩
        rw [show lexLt [] (a :: (q' ++ [b])) = true from rfl] at h1
        cases h1
      · intro h
        have := h.length_le
        simp at this
    | cons c t =>
      rw [show lexLt (c :: t) (a :: (q' ++ [b]))
          = (if c < a then true else if a < c then false
              else lexLt t (q' ++ [b])) from rfl]
      rw [show lexLt (c :: t) (a :: (q' ++ [b + 1]))
          = (if c < a then true else if a < c then false
              else lexLt t (q' ++ [b + 1])) from rfl]
      by_cases hca : c < a
      · rw [if_pos hca, if_pos hca]
        constructor
        · rintro ⟨h1, -⟩; cases h1
        · rintro ⟨t2, ht⟩
          injection ht with h1 h2
          omega
      · rw [if_neg hca, if_neg hca]
        by_cases hac : a < c
        · rw [if_pos hac, if_pos hac]
          constructor
          · rintro ⟨-, h2⟩; cases h2
          · rintro ⟨t2, ht⟩
            injection ht with h1 h2
            omega
        · rw [if_neg hac, if_neg hac]
          have haeq : a = c := by omega
          subst haeq
          rw [List.cons_prefix_cons]
          constructor
          · intro hpair
            exact ⟨rfl, (ih t).mp hpair⟩
          · rintro ⟨-, hp⟩
            exact (ih t).mpr hp

/-- Boolean form of `lexLt_bounds_extends`, shaped like the `range`
filter condition. -/
theorem lexLt_bounds_extends_eq (q : List Nat) (b : Nat) (k : List Nat) :
    ((!lexLt k (q ++ [b])) && lexLt k (q ++ [b + 1]))
      = decide ((q ++ [b]) <+: k) := by
  by_cases hp : (q ++ [b]) <+: k
  · rw [decide_eq_true hp]
    obtain ⟨h1, h2⟩ := (lexLt_bounds_extends q b k).mpr hp
    rw [h1, h2]
    rfl
  · rw [decide_eq_false hp]
    cases hlex1 : lexLt k (q ++ [b]) with
    | false =>
      cases hlex2 : lexLt k (q ++ [b + 1]) with
      | false => rfl
      | true => exact absurd ((lexLt_bounds_extends q b k).mp ⟨hlex1, hlex2⟩) hp
    | true => rfl

/-- The range `[q ++ [b], q ++ [b + 1])` selects exactly the entries
whose keys extend `q ++ [b]`. -/
theorem memScan_bounds_filter (m : Mem) (q : List Nat) (b : Nat) :
    memScan m (.incl (q ++ [b])) (.excl (q ++ [b + 1]))
      = m.filter (fun e => decide ((q ++ [b]) <+: e.1)) := by
  unfold memScan Smap.range
  apply List.filter_congr
  intro e he
  simp only [KBound.geBot, KBound.leTop]
  exact lexLt_bounds_extends_eq q b e.1

/-- When the last byte of the prefix is below `0xFF` the wrapped bound
is not inverted, so the checked `scan_prefix` does not panic and
returns the plain range scan. -/
theorem memScanPrefixChecked_eq (m : Mem) (p : List Nat) (b : Nat)
    (hl : p.getLast? = some b) (hb : b < 255) :
    memScanPrefixChecked m p
      = some (memScan m (.incl p) (.excl (p.dropLast ++ [b + 1]))) := by
  have hbound : boundPrefix p = p.dropLast ++ [b + 1] := by
    unfold boundPrefix
    rw [hl]
    simp [Nat.mod_eq_of_lt (show b + 1 < 256 by omega)]
  have hnot : ¬ (lexLt (p.dropLast ++ [b + 1]) p = true ∧ m ≠ []) := by
    rintro ⟨hinv, -⟩
    set q := p.dropLast with hq
    have hsplit : q ++ [b] = p := dropLast_append_getLast? hl
    rw [← hsplit] at hinv
    rw [lexLt_append_same] at hinv
    rw [show lexLt [b + 1] [b]
        = (if b + 1 < b then true else if b < b + 1 then false else lexLt [] [])
        from rfl] at hinv
    rw [if_neg (by omega), if_pos (by omega)] at hinv
    cases hinv
  unfold memScanPrefixChecked memScanChecked
  rw [hbound, if_neg hnot]

/-- Below the `0xFF` boundary, the checked `scan_prefix` returns the
entries whose keys extend the prefix. -/
theorem memScanPrefixChecked_filter (m : Mem) (p : List Nat) (b : Nat)
    (hl : p.getLast? = some b) (hb : b < 255) :
    memScanPrefixChecked m p
      = some (m.filter (fun e => decide (p <+: e.1))) := by
  rw [memScanPrefixChecked_eq m p b hl hb]
  set q := p.dropLast with hq
  have hsplit : q ++ [b] = p := dropLast_append_getLast? hl
  rw [← hsplit, memScan_bounds_filter]

/-- Whenever the checked `scan_prefix` returns at all (no panic), its
entries are the entries of the map whose keys extend the prefix. -/
theorem memScanPrefixChecked_entries (m : Mem) (p : List Nat) (b : Nat)
    (hl : p.getLast? = some b) (hb : b < 256)
    (entries : List (List Nat × List Nat))
    (h : memScanPrefixChecked m p = some entries) :
    entries = m.filter (fun e => decide (p <+: e.1)) := by
  by_cases hb' : b < 255
  · rw [memScanPrefixChecked_filter m p b hl hb'] at h
    exact (Option.some_inj.mp h).symm
  · have hb255 : b = 255 := by omega
    subst hb255
    by_cases hm : m = []
    · subst hm
      unfold memScanPrefixChecked memScanChecked at h
      rw [if_neg (by rintro ⟨-, hne⟩; exact hne rfl)] at h
      rw [show memScan [] (.incl p) (.excl (boundPrefix p)) = [] from rfl] at h
      rw [← Option.some_inj.mp h]
      rfl
    · exfalso
      have hbound : boundPrefix p = p.dropLast ++ [0] := by
        unfold boundPrefix
        rw [hl]
      have hinv : lexLt (p.dropLast ++ [0]) p = true := by
        set q := p.dropLast with hq
        have hsplit : q ++ [255] = p := dropLast_append_getLast? hl
        rw [← hsplit, lexLt_append_same]
        rfl
      unfold memScanPrefixChecked memScanChecked at h
      rw [hbound, if_pos ⟨hinv, hm⟩] at h
      cases h

/-- C8, counterexample: on the prefix `[0xFF]` with a single stored key
`[0xFF, 0x01]`, the claim's "overflow scans to the end" semantics would
return the entry, but the code's `scan_prefix` panics: the wrapping
increment produces the bound `[0x00]` below the prefix, and
`BTreeMap::range` panics on the non-empty map (`none` in the checked
model) — it neither scans to the end nor returns anything. -/
theorem engine_scan_prefix_overflow_cex :
    memScanPrefixChecked [([255, 1], [7])] [255] = none ∧
    scanPrefixSpec [([255, 1], [7])] [255] = [([255, 1], [7])] := by decide

/-- C8 (amended): `scan_prefix(p)` computes `succ(p)` by a wrapping
increment of the last byte of `p`.  When that byte is below `0xFF` the
call returns exactly `scan([p, succ(p)))`.  When it is `0xFF` the
increment wraps to `0x00` and the computed bound precedes the prefix,
so the call panics instead of returning — a debug build at
`*last += 1`, a release build inside `BTreeMap::range` whenever the
engine is non-empty (only an empty engine yields an empty scan); in no
case does the scan run to the end of the key space. -/
theorem engine_scan_prefix_range (m : Mem) (p : List Nat) (b : Nat)
    (hl : p.getLast? = some b) (hb : b < 256) :
    (b < 255 → memScanPrefixChecked m p
        = some (memScan m (.incl p) (.excl (p.dropLast ++ [b + 1])))) ∧
    (b = 255 → memScanPrefixChecked m p = if m = [] then some [] else none) := by
  constructor
  · intro hb'
    exact memScanPrefixChecked_eq m p b hl hb'
  · intro hb255
    subst hb255
    have hbound : boundPrefix p = p.dropLast ++ [0] := by
      unfold boundPrefix
      rw [hl]
    have hinv : lexLt (p.dropLast ++ [0]) p = true := by
      set q := p.dropLast with hq
      have hsplit : q ++ [255] = p := dropLast_append_getLast? hl
      rw [← hsplit, lexLt_append_same]
      rfl
    unfold memScanPrefixChecked memScanChecked
    rw [hbound]
    by_cases hm : m = []
    · rw [if_pos hm, if_neg (by rintro ⟨-, hne⟩; exact hne hm)]
      subst hm
      rfl
    · rw [if_neg hm, if_pos ⟨hinv, hm⟩]

/-- C8 witness: the amended characterization applied at a concrete
engine and prefix, exercising both hypotheses. -/
theorem engine_scan_prefix_range_witness :
    (([97] : List Nat).getLast? = some 97 ∧ (97 : Nat) < 256) ∧
    ((97 < 255 → memScanPrefixChecked
          [([97, 98], [1]), ([97, 99], [2]), ([98, 0], [3])] [97]
        = some (memScan [([97, 98], [1]), ([97, 99], [2]), ([98, 0], [3])]
            (.incl [97]) (.excl (([97] : List Nat).dropLast ++ [97 + 1])))) ∧
     ((97 : Nat) = 255 → memScanPrefixChecked
          [([97, 98], [1]), ([97, 99], [2]), ([98, 0], [3])] [97]
        = if ([([97, 98], [1]), ([97, 99], [2]), ([98, 0], [3])] : Mem) = []
          then some [] else none)) :=
  ⟨⟨by decide, by decide⟩,
    engine_scan_prefix_range _ [97] 97 (by decide) (by decide)⟩

/-! ### Codec lemmas -/

theorem lexLt_cons (x y : Nat) (xs ys : List Nat) :
    lexLt (x :: xs) (y :: ys) =
      if x < y then true else if y < x then false else lexLt xs ys := rfl

theorem beBytes_length (n v : Nat) : (beBytes n v).length = n := by
  induction n generalizing v with
  | zero => rfl
  | succ n ih => simp [beBytes, ih]

theorem beVal_foldl_shift (l : List Nat) (a : Nat) :
    l.foldl (fun acc b => acc * 256 + b) a =
      a * 256 ^ l.length + l.foldl (fun acc b => acc * 256 + b) 0 := by
  induction l generalizing a with
  | nil => simp
  | cons b bs ih =>
    simp only [List.foldl_cons, List.length_cons, Nat.zero_mul, Nat.zero_add]
    rw [ih (a * 256 + b), ih b]
    ring

theorem beVal_cons (c : Nat) (l : List Nat) :
    beVal (c :: l) = c * 256 ^ l.length + beVal l := by
  unfold beVal
  simp only [List.foldl_cons, Nat.zero_mul, Nat.zero_add]
  exact beVal_foldl_shift l c

theorem beVal_beBytes {n v : Nat} (h : v < 256 ^ n) :
    beVal (beBytes n v) = v := by
  induction n generalizing v with
  | zero =>
    interval_cases v
    rfl
  | succ n ih =>
    have hK : 0 < 256 ^ n := Nat.pos_pow_of_pos n (by omega)
    have hq : v / 256 ^ n < 256 := by
      rw [Nat.div_lt_iff_lt_mul hK]
      calc v < 256 ^ (n + 1) := h
        _ = 256 * 256 ^ n := by ring
    simp only [beBytes, beVal_cons, beBytes_length,
      Nat.mod_eq_of_lt hq, ih (Nat.mod_lt _ hK)]
    have := Nat.div_add_mod v (256 ^ n)
    rw [Nat.mul_comm] at this
    omega

theorem readU64_append {v : Nat} (h : v < 2 ^ 64) (rest : List Nat) :
    readU64 (u64BE v ++ rest) = some (v, rest) := by
  have hlen : (u64BE v).length = 8 := beBytes_length 8 v
  unfold readU64
  rw [if_neg (by simp [hlen])]
  have htake : (u64BE v ++ rest).take 8 = u64BE v := by
    rw [← hlen, List.take_left]
  have hdrop : (u64BE v ++ rest).drop 8 = rest := by
    rw [← hlen, List.drop_left]
  have hv : beVal (u64BE v) = v :=
    beVal_beBytes (n := 8) (by
      calc v < 2 ^ 64 := h
        _ = 256 ^ 8 := by norm_num)
  rw [htake, hdrop, hv]

theorem beBytes_lexLt_ne {n v1 v2 : Nat} (s1 s2 : List Nat)
    (h1 : v1 < 256 ^ n) (h2 : v2 < 256 ^ n) (hne : v1 ≠ v2) :
    lexLt (beBytes n v1 ++ s1) (beBytes n v2 ++ s2) = decide (v1 < v2) := by
  induction n generalizing v1 v2 with
  | zero => interval_cases v1 <;> interval_cases v2 <;> simp_all
  | succ n ih =>
    have hK : 0 < 256 ^ n := Nat.pos_pow_of_pos n (by omega)
    have hq1 : v1 / 256 ^ n < 256 := by
      rw [Nat.div_lt_iff_lt_mul hK]
      calc v1 < 256 ^ (n + 1) := h1
        _ = 256 * 256 ^ n := by ring
    have hq2 : v2 / 256 ^ n < 256 := by
      rw [Nat.div_lt_iff_lt_mul hK]
      calc v2 < 256 ^ (n + 1) := h2
        _ = 256 * 256 ^ n := by ring
    have e1 := Nat.div_add_mod v1 (256 ^ n)
    have e2 := Nat.div_add_mod v2 (256 ^ n)
    simp only [beBytes, List.cons_append, lexLt_cons,
      Nat.mod_eq_of_lt hq1, Nat.mod_eq_of_lt hq2]
    rcases Nat.lt_trichotomy (v1 / 256 ^ n) (v2 / 256 ^ n) with hd | hd | hd
    · rw [if_pos hd]
      have : v1 < v2 := Nat.lt_of_div_lt_div hd
      simp [this]
    · rw [if_neg (by omega), if_neg (by omega)]
      rw [hd] at e1
      have m1 : v1 % 256 ^ n < 256 ^ n := Nat.mod_lt _ hK
      have m2 : v2 % 256 ^ n < 256 ^ n := Nat.mod_lt _ hK
      have hmne : v1 % 256 ^ n ≠ v2 % 256 ^ n := by
        intro h
        apply hne
        omega
      rw [ih m1 m2 hmne]
      simp only [decide_eq_decide]
      omega
    · rw [if_neg (by omega), if_pos hd]
      have : v2 < v1 := Nat.lt_of_div_lt_div hd
      rw [eq_comm, decide_eq_false (by omega)]

theorem escBytes_cons (b : Nat) (bs : List Nat) :
    escBytes (b :: bs) = escByte b ++ escBytes bs := by
  unfold escBytes escCore
  simp [List.append_assoc]

/-- Decoding inverts the escaped byte-string encoding, whatever follows
the terminator. -/
theorem nextBytes_escBytes (k rest : List Nat) :
    nextBytes (escBytes k ++ rest) = some (k, rest) := by
  induction k with
  | nil => simp [escBytes, escCore, nextBytes]
  | cons b bs ih =>
    rw [escBytes_cons, List.append_assoc]
    by_cases hb : b = 0
    · subst hb
      simp [escByte, nextBytes, ih]
    · unfold nextBytes
      simp only [escByte, if_neg hb]
      simp [hb, ih]

/-- The escaped encodings of two distinct byte strings differ before
either terminator is passed, so comparing the encodings (with arbitrary
suffixes) is comparing the strings. -/
theorem escBytes_lexLt_ne {k1 k2 : List Nat} (s1 s2 : List Nat)
    (hne : k1 ≠ k2) :
    lexLt (escBytes k1 ++ s1) (escBytes k2 ++ s2) = lexLt k1 k2 := by
  induction k1 generalizing k2 s1 s2 with
  | nil =>
    cases k2 with
    | nil => exact absurd rfl hne
    | cons y ys =>
      by_cases hy : y = 0
      · subst hy
        simp [escBytes, escCore, escByte, lexLt_cons, lexLt]
      · have : 0 < y := Nat.pos_of_ne_zero hy
        simp [escBytes, escCore, escByte, hy, lexLt_cons, this, lexLt]
  | cons x xs ih =>
    cases k2 with
    | nil =>
      by_cases hx : x = 0
      · subst hx
        simp [escBytes, escCore, escByte, lexLt_cons, lexLt]
      · have : 0 < x := Nat.pos_of_ne_zero hx
        simp [escBytes, escCore, escByte, hx, lexLt_cons,
          Nat.not_lt.mpr (Nat.le_of_lt this), this, lexLt]
    | cons y ys =>
      by_cases hxy : x = y
      · subst hxy
        have hne' : xs ≠ ys := by
          intro h; exact hne (by rw [h])
        rw [escBytes_cons, escBytes_cons, List.append_assoc,
          List.append_assoc, lexLt_append_same, ih s1 s2 hne']
        simp [lexLt_cons]
      · by_cases hx : x = 0
        · subst hx
          have hy : 0 < y := by omega
          simp [escBytes_cons, escByte, hy, lexLt_cons,
            Nat.ne_of_gt hy, lexLt]
        · by_cases hy : y = 0
          · subst hy
            have hx' : 0 < x := Nat.pos_of_ne_zero hx
            simp [escBytes_cons, escByte, hx, lexLt_cons,
              Nat.not_lt.mpr (Nat.le_of_lt hx'), hx', lexLt]
          · rcases Nat.lt_trichotomy x y with h | h | h
            · simp [escBytes_cons, escByte, hx, hy, lexLt_cons, h]
            · exact absurd h hxy
            · simp [escBytes_cons, escByte, hx, hy, lexLt_cons, h,
                Nat.not_lt.mpr (Nat.le_of_lt h)]

/-- `beBytes_lexLt_ne` restated through `u64BE`, the form the encoders
produce. -/
theorem u64BE_lexLt_ne {v1 v2 : Nat} (s1 s2 : List Nat) (h1 : v1 < 2 ^ 64)
    (h2 : v2 < 2 ^ 64) (hne : v1 ≠ v2) :
    lexLt (u64BE v1 ++ s1) (u64BE v2 ++ s2) = decide (v1 < v2) :=
  beBytes_lexLt_ne s1 s2
    (by calc v1 < 2 ^ 64 := h1
          _ = 256 ^ 8 := by norm_num)
    (by calc v2 < 2 ^ 64 := h2
          _ = 256 ^ 8 := by norm_num) hne

/-- Well-typed keys decode back from their encodings (claim C3's
round-trip half, as a standalone lemma). -/
theorem MvccKey.decode_encode {k : MvccKey} (h : k.Wf) :
    MvccKey.decode k.encode = some k := by
  cases k with
  | NextVersion => rfl
  | TxnActive v =>
    have hv : v < 2 ^ 64 := h
    have h8 := readU64_append hv ([] : List Nat)
    rw [List.append_nil] at h8
    simp [MvccKey.encode, MvccKey.decode, h8]
  | TxnWrite v k =>
    have h8 := readU64_append h.1 (escBytes k)
    have hnb := nextBytes_escBytes k []
    rw [List.append_nil] at hnb
    simp [MvccKey.encode, MvccKey.decode, h8, hnb]
  | Version k v =>
    have hnb := nextBytes_escBytes k (u64BE v)
    have h8 := readU64_append h.1 ([] : List Nat)
    rw [List.append_nil] at h8
    simp [MvccKey.encode, MvccKey.decode, h8, hnb]

/-- The codec is order-preserving: on well-typed keys, the byte order of
the encodings is exactly the logical tag-then-tuple order. -/
theorem MvccKey.encode_lexLt {a b : MvccKey} (ha : a.Wf) (hb : b.Wf) :
    lexLt a.encode b.encode = a.keyLt b := by
  have hconv : ∀ v : Nat, v < 2 ^ 64 → v < 256 ^ 8 := by
    intro v h
    calc v < 2 ^ 64 := h
      _ = 256 ^ 8 := by norm_num
  cases a with
  | NextVersion =>
    cases b <;>
      simp [MvccKey.encode, MvccKey.keyLt, MvccKey.tag, MvccKey.tupleLt,
        lexLt_cons, lexLt]
  | TxnActive v1 =>
    cases b with
    | TxnActive v2 =>
      simp only [MvccKey.encode, MvccKey.keyLt, MvccKey.tag,
        MvccKey.tupleLt, lexLt_cons, Nat.lt_irrefl, if_false]
      by_cases hv : v1 = v2
      · subst hv
        simp [lexLt_irrefl]
      · rw [← List.append_nil (u64BE v1), ← List.append_nil (u64BE v2)]
        exact u64BE_lexLt_ne [] [] ha hb hv
    | NextVersion =>
      simp [MvccKey.encode, MvccKey.keyLt, MvccKey.tag, MvccKey.tupleLt,
        lexLt_cons, lexLt]
    | TxnWrite v2 k2 =>
      simp [MvccKey.encode, MvccKey.keyLt, MvccKey.tag, MvccKey.tupleLt,
        lexLt_cons, lexLt]
    | Version k2 v2 =>
      simp [MvccKey.encode, MvccKey.keyLt, MvccKey.tag, MvccKey.tupleLt,
        lexLt_cons, lexLt]
  | TxnWrite v1 k1 =>
    cases b with
    | TxnWrite v2 k2 =>
      simp only [MvccKey.encode, MvccKey.keyLt, MvccKey.tag,
        MvccKey.tupleLt, lexLt_cons, Nat.lt_irrefl, if_false]
      by_cases hv : v1 = v2
      · subst hv
        rw [lexLt_append_same]
        by_cases hk : k1 = k2
        · subst hk
          simp [lexLt_irrefl]
        · have hesc := escBytes_lexLt_ne ([] : List Nat) [] hk
          rw [List.append_nil, List.append_nil] at hesc
          simp [hesc, hk]
      · rw [u64BE_lexLt_ne _ _ ha.1 hb.1 hv]
        simp [hv]
    | NextVersion =>
      simp [MvccKey.encode, MvccKey.keyLt, MvccKey.tag, MvccKey.tupleLt,
        lexLt_cons, lexLt]
    | TxnActive v2 =>
      simp [MvccKey.encode, MvccKey.keyLt, MvccKey.tag, MvccKey.tupleLt,
        lexLt_cons, lexLt]
    | Version k2 v2 =>
      simp [MvccKey.encode, MvccKey.keyLt, MvccKey.tag, MvccKey.tupleLt,
        lexLt_cons, lexLt]
  | Version k1 v1 =>
    cases b with
    | Version k2 v2 =>
      simp only [MvccKey.encode, MvccKey.keyLt, MvccKey.tag,
        MvccKey.tupleLt, lexLt_cons, Nat.lt_irrefl, if_false]
      by_cases hk : k1 = k2
      · subst hk
        rw [lexLt_append_same]
        by_cases hv : v1 = v2
        · subst hv
          simp [lexLt_irrefl]
        · rw [← List.append_nil (u64BE v1), ← List.append_nil (u64BE v2),
            u64BE_lexLt_ne [] [] ha.1 hb.1 hv]
          simp [lexLt_irrefl]
      · rw [escBytes_lexLt_ne _ _ hk]
        simp [hk]
    | NextVersion =>
      simp [MvccKey.encode, MvccKey.keyLt, MvccKey.tag, MvccKey.tupleLt,
        lexLt_cons, lexLt]
    | TxnActive v2 =>
      simp [MvccKey.encode, MvccKey.keyLt, MvccKey.tag, MvccKey.tupleLt,
        lexLt_cons, lexLt]
    | TxnWrite v2 k2 =>
      simp [MvccKey.encode, MvccKey.keyLt, MvccKey.tag, MvccKey.tupleLt,
        lexLt_cons, lexLt]

/-- C3: for every well-typed `MvccKey`, `decode (encode k) = k`, and for
any two keys of the same variant shape the lexicographic order of the
encodings is the logical tuple order. -/
theorem keycode_roundtrip_and_order (a b : MvccKey) (ha : a.Wf)
    (hb : b.Wf) :
    MvccKey.decode a.encode = some a ∧
      (a.sameShape b = true → lexLt a.encode b.encode = a.tupleLt b) := by
  refine ⟨MvccKey.decode_encode ha, fun hs => ?_⟩
  have htag : a.tag = b.tag := by
    simpa [MvccKey.sameShape] using hs
  rw [MvccKey.encode_lexLt ha hb]
  unfold MvccKey.keyLt
  rw [htag]
  simp

/-- C3 witness: the round-trip and order property at concrete keys
(`Version("a\x00", 5)` versus `Version("a\x01", 2)`). -/
theorem keycode_roundtrip_and_order_witness :
    MvccKey.decode (MvccKey.Version [97, 0] 5).encode =
        some (MvccKey.Version [97, 0] 5) ∧
      ((MvccKey.Version [97, 0] 5).sameShape (MvccKey.Version [97, 1] 2) =
          true →
        lexLt (MvccKey.Version [97, 0] 5).encode
            (MvccKey.Version [97, 1] 2).encode =
          (MvccKey.Version [97, 0] 5).tupleLt (MvccKey.Version [97, 1] 2)) :=
  keycode_roundtrip_and_order _ _ (by decide) (by decide)

/-! ### Prefix-matching of the truncated `Version` prefix (claim C7) -/

theorem escCore_cons (x : Nat) (xs : List Nat) :
    escCore (x :: xs) = escByte x ++ escCore xs := by
  simp [escCore]

theorem versionScanPrefix_eq (k : List Nat) :
    versionScanPrefix k = 3 :: escCore k := by
  unfold versionScanPrefix MvccKeyPrefix.encode escBytes
  have hlen : (3 :: (escCore k ++ [0, 0])).length - 2 =
      (escCore k).length + 1 := by simp
  rw [hlen, List.take_succ_cons]
  congr 1
  exact List.take_left _ _

theorem escCore_append (a b : List Nat) :
    escCore (a ++ b) = escCore a ++ escCore b := by
  simp [escCore]

/-- Core of C7: the escaped body of `k` is a byte prefix of the escaped
body of `k'` followed by a terminator-led tail iff `k` is a prefix of
`k'`.  The escaping of interior zeros is what rules out false matches. -/
theorem escCore_prefix_iff (k k' t : List Nat) :
    escCore k <+: escCore k' ++ (0 :: 0 :: t) ↔ k <+: k' := by
  induction k generalizing k' with
  | nil => simp [escCore]
  | cons x xs ih =>
    cases k' with
    | nil =>
      simp only [escCore, List.map_nil, List.flatten_nil, List.nil_append]
      constructor
      · intro h
        exfalso
        have hx : escByte x <+: 0 :: 0 :: t := by
          have h' : escByte x ++ escCore xs <+: 0 :: 0 :: t := by
            rw [← escCore_cons]; exact h
          exact List.IsPrefix.trans (List.prefix_append _ _) h'
        by_cases hx0 : x = 0
        · subst hx0
          simp only [escByte, if_pos rfl] at hx
          rcases List.cons_prefix_cons.mp hx with ⟨-, hx'⟩
          rcases List.cons_prefix_cons.mp hx' with ⟨h255, -⟩
          exact absurd h255 (by decide)
        · simp only [escByte, if_neg hx0] at hx
          rcases List.cons_prefix_cons.mp hx with ⟨h0, -⟩
          exact hx0 h0
      · intro h
        exact absurd h (by simp)
    | cons y ys =>
      by_cases hxy : x = y
      · subst hxy
        rw [escCore_cons, escCore_cons, List.append_assoc,
          List.prefix_append_right_inj, ih, List.cons_prefix_cons]
        simp
      · rw [escCore_cons, escCore_cons, List.append_assoc]
        constructor
        · intro h
          exfalso
          have hx : escByte x <+: escByte y ++ (escCore ys ++ (0 :: 0 :: t)) :=
            List.IsPrefix.trans (List.prefix_append _ _) h
          by_cases hx0 : x = 0
          · subst hx0
            have hy0 : y ≠ 0 := fun h => hxy h.symm
            simp only [escByte, if_pos rfl, if_neg hy0] at hx
            rcases List.cons_prefix_cons.mp hx with ⟨h0, -⟩
            exact hy0 h0.symm
          · by_cases hy0 : y = 0
            · subst hy0
              simp only [escByte, if_neg hx0, if_pos rfl] at hx
              rcases List.cons_prefix_cons.mp hx with ⟨h0, -⟩
              exact hx0 h0
            · simp only [escByte, if_neg hx0, if_neg hy0] at hx
              rcases List.cons_prefix_cons.mp hx with ⟨h0, -⟩
              exact hxy h0
        · intro h
          rcases List.cons_prefix_cons.mp h with ⟨h0, -⟩
          exact absurd h0 hxy

/-- C7, counterexample: the truncated prefix for the user key `"a"` also
matches the encoded `Version` record of the longer user key `"ab"`, so
the prefix does not match only records "for that specific k". -/
theorem version_prefix_not_exact_cex :
    (versionScanPrefix [97]).isPrefixOf (MvccKey.Version [97, 98] 0).encode
        = true ∧
      ([97, 98] : List Nat) ≠ [97] := by decide

/-- C7 (amended): the truncated `Version(k)` prefix matches exactly the
encodings of the `Version(k', v)` records whose user key `k'` extends
`k`: because interior `0x00` bytes are escaped as `0x00 0xFF`, the match
succeeds iff `k` is a byte prefix of `k'`. -/
theorem version_prefix_matches (k k' : List Nat) (v : Nat) :
    (versionScanPrefix k).isPrefixOf (MvccKey.Version k' v).encode =
      k.isPrefixOf k' := by
  have hiff : versionScanPrefix k <+: (MvccKey.Version k' v).encode ↔
      k <+: k' := by
    rw [versionScanPrefix_eq]
    show (3 :: escCore k) <+: 3 :: (escBytes k' ++ u64BE v) ↔ _
    rw [List.cons_prefix_cons]
    unfold escBytes
    rw [List.append_assoc]
    have : ([0, 0] : List Nat) ++ u64BE v = 0 :: 0 :: u64BE v := rfl
    rw [this, escCore_prefix_iff]
    simp
  cases hb : k.isPrefixOf k' with
  | true =>
    rw [List.isPrefixOf_iff_prefix] at hb ⊢
    exact hiff.mpr hb
  | false =>
    rw [← Bool.not_eq_true] at hb ⊢
    rw [List.isPrefixOf_iff_prefix] at hb ⊢
    exact fun h => hb (hiff.mp h)

/-! ### Map access lemmas -/

theorem Smap.get?_of_mem {α : Type} {m : Smap α} (hs : m.Sorted)
    {e : List Nat × α} (he : e ∈ m) : m.get? e.1 = some e.2 := by
  induction m with
  | nil => simp at he
  | cons f rest ih =>
    obtain ⟨fk, fv⟩ := f
    obtain ⟨hhead, htail⟩ := List.pairwise_cons.mp hs
    rcases List.mem_cons.mp he with rfl | he'
    · simp [Smap.get?]
    · have hne : e.1 ≠ fk := by
        intro h
        have := hhead e he'
        rw [h] at this
        simp [lexLt_irrefl] at this
      simp only [Smap.get?, if_neg hne]
      exact ih htail he'

theorem Smap.mem_of_get? {α : Type} {m : Smap α} {k : List Nat} {v : α}
    (h : m.get? k = some v) : (k, v) ∈ m := by
  induction m with
  | nil => simp [Smap.get?] at h
  | cons f rest ih =>
    obtain ⟨fk, fv⟩ := f
    simp only [Smap.get?] at h
    by_cases hk : k = fk
    · subst hk
      rw [if_pos rfl] at h
      cases h
      simp
    · rw [if_neg hk] at h
      exact List.mem_cons_of_mem _ (ih h)

/-- Strengthened membership for `insert` on a sorted map: an entry of the
result is the new binding or an untouched old entry at a different key. -/
theorem Smap.mem_insert_sorted {α : Type} {m : Smap α} (hs : m.Sorted)
    {k : List Nat} {v : α} {e : List Nat × α} (h : e ∈ Smap.insert k v m) :
    e = (k, v) ∨ (e ∈ m ∧ e.1 ≠ k) := by
  induction m with
  | nil =>
    simp only [Smap.insert, List.mem_singleton] at h
    exact Or.inl h
  | cons f rest ih =>
    obtain ⟨fk, fv⟩ := f
    obtain ⟨hhead, htail⟩ := List.pairwise_cons.mp hs
    simp only [Smap.insert] at h
    by_cases h₁ : lexLt k fk
    · rw [if_pos h₁] at h
      rcases List.mem_cons.mp h with rfl | h'
      · exact Or.inl rfl
      · refine Or.inr ⟨h', ?_⟩
        intro hek
        rcases List.mem_cons.mp h' with rfl | h''
        · have hfk : fk = k := hek
          rw [hfk] at h₁
          simp [lexLt_irrefl] at h₁
        · have := hhead e h''
          rw [hek] at this
          exact absurd (lexLt_trans h₁ this) (by simp [lexLt_irrefl])
    · by_cases h₂ : k = fk
      · subst h₂
        rw [if_neg h₁, if_pos rfl] at h
        rcases List.mem_cons.mp h with rfl | h'
        · exact Or.inl rfl
        · refine Or.inr ⟨List.mem_cons_of_mem _ h', ?_⟩
          intro hek
          have := hhead e h'
          rw [hek] at this
          simp [lexLt_irrefl] at this
      · rw [if_neg h₁, if_neg h₂] at h
        rcases List.mem_cons.mp h with rfl | h'
        · exact Or.inr ⟨List.mem_cons_self _ _, fun hek => h₂ hek.symm⟩
        · rcases ih htail h' with h'' | ⟨h'', hne⟩
          · exact Or.inl h''
          · exact Or.inr ⟨List.mem_cons_of_mem _ h'', hne⟩

/-! ### `listMax?` facts -/

theorem listMax?_cons (x : Nat) (l : List Nat) :
    listMax? (x :: l) =
      match listMax? l with
      | none => some x
      | some y => some (Nat.max x y) := rfl

theorem listMax?_eq_none {l : List Nat} : listMax? l = none ↔ l = [] := by
  cases l with
  | nil => simp [listMax?]
  | cons x l =>
    rw [listMax?_cons]
    cases listMax? l <;> simp

theorem listMax?_spec {l : List Nat} (hne : l ≠ []) :
    ∃ x, listMax? l = some x ∧ x ∈ l ∧ ∀ y ∈ l, y ≤ x := by
  induction l with
  | nil => exact absurd rfl hne
  | cons a l ih =>
    by_cases hl : l = []
    · subst hl
      exact ⟨a, rfl, by simp, by simp⟩
    · obtain ⟨x, hx, hxm, hxb⟩ := ih hl
      rw [listMax?_cons, hx]
      refine ⟨Nat.max a x, rfl, ?_, ?_⟩
      · rcases Nat.le_total a x with h | h
        · rw [show Nat.max a x = x from Nat.max_eq_right h]
          exact List.mem_cons_of_mem _ hxm
        · rw [show Nat.max a x = a from Nat.max_eq_left h]
          exact List.mem_cons_self _ _
      · intro y hy
        rcases List.mem_cons.mp hy with rfl | hy'
        · exact Nat.le_max_left _ _
        · exact Nat.le_trans (hxb y hy') (Nat.le_max_right _ _)

/-! ### The `Version(key, ·)` range -/

/-- Membership of an encoded well-typed key in the inclusive scan range
`Version(key, vlo) ..= Version(key, vhi)`: exactly the `Version` records
of that user key whose version lies in `[vlo, vhi]`. -/
theorem version_range_iff {mk : MvccKey} (hmk : mk.Wf) {key : List Nat}
    (hkey : ∀ b ∈ key, b < 256) {vlo vhi : Nat} (hlo : vlo < 2 ^ 64)
    (hhi : vhi < 2 ^ 64) :
    (KBound.geBot (.incl (MvccKey.Version key vlo).encode) mk.encode &&
        KBound.leTop (.incl (MvccKey.Version key vhi).encode) mk.encode) =
        true ↔
      ∃ v, mk = .Version key v ∧ vlo ≤ v ∧ v ≤ vhi := by
  have hloWf : (MvccKey.Version key vlo).Wf := ⟨hlo, hkey⟩
  have hhiWf : (MvccKey.Version key vhi).Wf := ⟨hhi, hkey⟩
  simp only [KBound.geBot, KBound.leTop, Bool.and_eq_true,
    Bool.not_eq_true']
  rw [MvccKey.encode_lexLt hmk hloWf, MvccKey.encode_lexLt hhiWf hmk]
  cases mk with
  | NextVersion => simp [MvccKey.keyLt, MvccKey.tag]
  | TxnActive v => simp [MvccKey.keyLt, MvccKey.tag]
  | TxnWrite v k => simp [MvccKey.keyLt, MvccKey.tag]
  | Version k' v' =>
    simp only [MvccKey.keyLt, MvccKey.tag, Nat.lt_irrefl, if_false,
      MvccKey.tupleLt]
    constructor
    · rintro ⟨h1, h2⟩
      rw [Bool.or_eq_false_iff] at h1 h2
      rcases lexLt_trichot k' key with ht | ht | ht
      · rw [h1.1] at ht
        cases ht
      · subst ht
        refine ⟨v', rfl, ?_, ?_⟩
        · have := h1.2
          simp at this
          omega
        · have := h2.2
          simp at this
          omega
      · rw [h2.1] at ht
        cases ht
    · rintro ⟨v, heq, hge, hle⟩
      cases heq
      simp [lexLt_irrefl]
      omega

/-! ### Scan characterization over well-formed MVCC states -/

theorem entryWf_elim {e : List Nat × List Nat} (h : entryWf e) :
    ∃ mk : MvccKey, MvccKey.decode e.1 = some mk ∧ mk.Wf ∧
      e.1 = mk.encode ∧
      (∀ k v, mk = .Version k v → (bincodeOptDec e.2).isSome = true) := by
  unfold entryWf at h
  cases hd : MvccKey.decode e.1 with
  | none =>
    rw [hd] at h
    exact h.elim
  | some mk =>
    rw [hd] at h
    refine ⟨mk, rfl, h.1, h.2.1, ?_⟩
    intro k v hkv
    subst hkv
    exact h.2.2

theorem version_encode_inj {key : List Nat} {v w : Nat}
    (hkey : ∀ b ∈ key, b < 256) (hv : v < 2 ^ 64) (hw : w < 2 ^ 64)
    (h : (MvccKey.Version key v).encode = (MvccKey.Version key w).encode) :
    v = w := by
  have h1 := MvccKey.decode_encode (k := .Version key v) ⟨hv, hkey⟩
  rw [h, MvccKey.decode_encode (k := .Version key w) ⟨hw, hkey⟩] at h1
  cases h1
  rfl

theorem versionOf_encode {key : List Nat} {v : Nat}
    (hkey : ∀ b ∈ key, b < 256) (hv : v < 2 ^ 64) :
    versionOf (MvccKey.Version key v).encode = v := by
  unfold versionOf
  rw [MvccKey.decode_encode (k := .Version key v) ⟨hv, hkey⟩]

/-- The entries an inclusive `Version(key, vlo) ..= Version(key, vhi)`
scan returns from a well-formed state: the stored `Version(key, v)`
records with `vlo ≤ v ≤ vhi`. -/
theorem mem_version_scan {m : Mem} (hm : WfMem m) {key : List Nat}
    (hkey : ∀ b ∈ key, b < 256) {vlo vhi : Nat} (hlo : vlo < 2 ^ 64)
    (hhi : vhi < 2 ^ 64) {e : List Nat × List Nat} :
    e ∈ memScan m (.incl (MvccKey.Version key vlo).encode)
        (.incl (MvccKey.Version key vhi).encode) ↔
      e ∈ m ∧ ∃ v, e.1 = (MvccKey.Version key v).encode ∧ vlo ≤ v ∧
        v ≤ vhi ∧ v < 2 ^ 64 ∧ (bincodeOptDec e.2).isSome = true := by
  unfold memScan Smap.range
  rw [List.mem_filter]
  constructor
  · rintro ⟨hmem, hcond⟩
    obtain ⟨mk, hdec, hwf, henc, hval⟩ := entryWf_elim (hm.2 e hmem)
    rw [henc] at hcond
    obtain ⟨v, hmk, h1, h2⟩ := (version_range_iff hwf hkey hlo hhi).mp hcond
    subst hmk
    exact ⟨hmem, v, henc, h1, h2, hwf.1, hval _ _ rfl⟩
  · rintro ⟨hmem, v, henc, h1, h2, hv64, hsome⟩
    refine ⟨hmem, ?_⟩
    rw [henc]
    have hwfv : (MvccKey.Version key v).Wf := ⟨hv64, hkey⟩
    exact (version_range_iff hwfv hkey hlo hhi).mpr ⟨v, rfl, h1, h2⟩

theorem mem_specVisibleVersions {m : Mem} {s : TxState} {key : List Nat}
    {v : Nat} :
    v ∈ specVisibleVersions m s key ↔
      v ≤ s.version ∧ s.isVisible v = true ∧
        (m.get? (MvccKey.Version key v).encode).isSome = true := by
  unfold specVisibleVersions
  rw [List.mem_filter, List.mem_range, Bool.and_eq_true, Nat.lt_succ_iff]

/-- The induction behind claim C1: walking the reversed scan list and
returning the first visible entry computes the spec's
greatest-visible-version lookup.  `L` is the reversed scan result:
versions strictly descending, every entry a well-formed `Version(key,·)`
record of the engine. -/
theorem txGetLoop_spec (m : Mem) (s : TxState) (key : List Nat)
    (hsver : s.version < 2 ^ 64) (hkey : ∀ b ∈ key, b < 256) :
    ∀ L : List (List Nat × List Nat),
      (∀ e ∈ L, ∃ v, e.1 = (MvccKey.Version key v).encode ∧
        v ≤ s.version ∧ (bincodeOptDec e.2).isSome = true) →
      L.Pairwise (fun a b => versionOf b.1 < versionOf a.1) →
      (∀ v, v ∈ specVisibleVersions m s key ↔
        (s.isVisible v = true ∧
          ∃ val, ((MvccKey.Version key v).encode, val) ∈ L)) →
      (∀ e ∈ L, m.get? e.1 = some e.2) →
      txGetLoop s L = some (specSnapshotGet m s key) := by
  intro L
  induction L with
  | nil =>
    intro _ _ hchar _
    have hsvv : specVisibleVersions m s key = [] := by
      refine List.eq_nil_iff_forall_not_mem.mpr (fun v hv => ?_)
      rcases ((hchar v).mp hv).2 with ⟨val, hmem⟩
      simp at hmem
    unfold specSnapshotGet
    rw [hsvv]
    rfl
  | cons e L' ih =>
    intro hshape hdesc hchar hval
    obtain ⟨ek, eval⟩ := e
    obtain ⟨v0, henc, hv0le, hv0some⟩ := hshape (ek, eval) (by simp)
    simp only at henc
    have hv064 : v0 < 2 ^ 64 := Nat.lt_of_le_of_lt hv0le hsver
    have hdec : MvccKey.decode ek = some (.Version key v0) := by
      rw [henc]
      exact MvccKey.decode_encode ⟨hv064, hkey⟩
    simp only [txGetLoop, hdec]
    by_cases hvis : s.isVisible v0 = true
    · rw [if_pos hvis]
      obtain ⟨payload, hpay⟩ := Option.isSome_iff_exists.mp hv0some
      rw [hpay]
      have hv0mem : v0 ∈ specVisibleVersions m s key :=
        (hchar v0).mpr ⟨hvis, eval, by rw [← henc]; simp⟩
      have hne : specVisibleVersions m s key ≠ [] := by
        intro h
        rw [h] at hv0mem
        simp at hv0mem
      obtain ⟨x, hx, hxm, hxb⟩ := listMax?_spec hne
      have hx64 : x < 2 ^ 64 :=
        Nat.lt_of_le_of_lt (mem_specVisibleVersions.mp hxm).1 hsver
      have hxv0 : x = v0 := by
        rcases ((hchar x).mp hxm).2 with ⟨val, hxmem⟩
        rcases List.mem_cons.mp hxmem with hhead | htail
        · have : (MvccKey.Version key x).encode = ek := congrArg Prod.fst hhead
          rw [henc] at this
          exact version_encode_inj hkey hx64 hv064 this
        · exfalso
          have hlt := (List.pairwise_cons.mp hdesc).1 _ htail
          simp only [versionOf_encode hkey hx64] at hlt
          rw [henc, versionOf_encode hkey hv064] at hlt
          exact absurd (hxb v0 hv0mem) (by omega)
      subst hxv0
      unfold specSnapshotGet
      rw [hx]
      have hget : m.get? (MvccKey.Version key x).encode = some eval := by
        rw [← henc]
        exact hval (ek, eval) (by simp)
      simp [hget, hpay]
    · rw [if_neg hvis]
      refine ih (fun e he => hshape e (List.mem_cons_of_mem _ he))
        (List.pairwise_cons.mp hdesc).2 (fun v => ?_)
        (fun e he => hval e (List.mem_cons_of_mem _ he))
      rw [hchar v]
      constructor
      · rintro ⟨hv, val, hmem⟩
        refine ⟨hv, val, ?_⟩
        rcases List.mem_cons.mp hmem with hhead | htail
        · exfalso
          have hv64 : v < 2 ^ 64 := by
            have := (mem_specVisibleVersions.mp ((hchar v).mpr
              ⟨hv, val, hmem⟩)).1
            omega
          have : (MvccKey.Version key v).encode = ek :=
            congrArg Prod.fst hhead
          rw [henc] at this
          have := version_encode_inj hkey hv64 hv064 this
          subst this
          exact hvis hv
        · exact htail
      · rintro ⟨hv, val, hmem⟩
        exact ⟨hv, val, List.mem_cons_of_mem _ hmem⟩

theorem isVisible_le {s : TxState} {v : Nat} (h : s.isVisible v = true) :
    v ≤ s.version := by
  unfold TxState.isVisible at h
  by_cases hc : s.active.contains v
  · rw [if_pos hc] at h
    cases h
  · rw [if_neg hc] at h
    exact of_decide_eq_true h

/-- C1: for every transaction state and key over a well-formed engine,
`get` returns exactly the payload of the greatest-versioned visible
`Version(key, ·)` record — absent when none exists or it is a tombstone —
i.e. the reverse scan over `Version(key,0) ..= Version(key, T.version)`
implements the spec's snapshot lookup. -/
theorem mvcc_get_snapshot (m : Mem) (s : TxState) (key : List Nat)
    (hm : WfMem m) (hs : s.version < 2 ^ 64)
    (hkey : ∀ b ∈ key, b < 256) :
    txGet m s key = some (specSnapshotGet m s key) := by
  have h0 : (0 : Nat) < 2 ^ 64 := by norm_num
  unfold txGet
  have hfil : List.Sublist
      (memScan m (.incl (MvccKey.Version key 0).encode)
        (.incl (MvccKey.Version key s.version).encode)) m :=
    List.filter_sublist m
  apply txGetLoop_spec m s key hs hkey
  · intro e he
    rw [List.mem_reverse] at he
    obtain ⟨-, v, henc, -, hle, -, hsome⟩ :=
      (mem_version_scan hm hkey h0 hs).mp he
    exact ⟨v, henc, hle, hsome⟩
  · rw [List.pairwise_reverse]
    have hRsorted := hm.1.sublist hfil
    refine hRsorted.imp_of_mem ?_
    intro a b ha hb hlex
    obtain ⟨-, va, henca, -, -, hva, -⟩ :=
      (mem_version_scan hm hkey h0 hs).mp ha
    obtain ⟨-, vb, hencb, -, -, hvb, -⟩ :=
      (mem_version_scan hm hkey h0 hs).mp hb
    rw [henca, hencb, versionOf_encode hkey hva, versionOf_encode hkey hvb]
    rw [henca, hencb] at hlex
    have hwa : (MvccKey.Version key va).Wf := ⟨hva, hkey⟩
    have hwb : (MvccKey.Version key vb).Wf := ⟨hvb, hkey⟩
    rw [MvccKey.encode_lexLt hwa hwb] at hlex
    simp only [MvccKey.keyLt, MvccKey.tag, Nat.lt_irrefl, if_false,
      MvccKey.tupleLt, lexLt_irrefl, Bool.false_or, Bool.or_eq_true,
      Bool.and_eq_true, decide_eq_true_eq] at hlex
    exact hlex.2
  · intro v
    rw [mem_specVisibleVersions]
    constructor
    · rintro ⟨hle, hvis, hsome⟩
      obtain ⟨val, hget⟩ := Option.isSome_iff_exists.mp hsome
      refine ⟨hvis, val, ?_⟩
      rw [List.mem_reverse]
      apply (mem_version_scan hm hkey h0 hs).mpr
      have hv64 : v < 2 ^ 64 := Nat.lt_of_le_of_lt hle hs
      have hmem := Smap.mem_of_get? hget
      refine ⟨hmem, v, rfl, Nat.zero_le _, hle, hv64, ?_⟩
      obtain ⟨mk, hdec, hwf, -, hval⟩ := entryWf_elim (hm.2 _ hmem)
      have hd2 := MvccKey.decode_encode (k := .Version key v) ⟨hv64, hkey⟩
      have : mk = .Version key v := by
        rw [hdec] at hd2
        cases hd2
        rfl
      subst this
      exact hval key v rfl
    · rintro ⟨hvis, val, hmem⟩
      rw [List.mem_reverse] at hmem
      obtain ⟨hmm, -⟩ := (mem_version_scan hm hkey h0 hs).mp hmem
      refine ⟨isVisible_le hvis, hvis, ?_⟩
      rw [Smap.get?_of_mem hm.1 hmm]
      rfl
  · intro e he
    rw [List.mem_reverse] at he
    exact Smap.get?_of_mem hm.1 (hfil.mem he)

/-- C1 witness: the snapshot-get equation applied to a concrete
well-formed state (one committed write of `[7] ↦ [1]` at version 1, a
transaction at version 2). -/
theorem mvcc_get_snapshot_witness :
    txGet
        [((MvccKey.NextVersion).encode, bincodeU64Enc 3),
         ((MvccKey.Version [7] 1).encode, bincodeOptEnc (some [1]))]
        (TxState.mk 2 []) [7] =
      some (specSnapshotGet
        [((MvccKey.NextVersion).encode, bincodeU64Enc 3),
         ((MvccKey.Version [7] 1).encode, bincodeOptEnc (some [1]))]
        (TxState.mk 2 []) [7]) :=
  mvcc_get_snapshot _ _ _ (by decide) (by decide) (by decide)

/-! ### The conflict check of `write_inner` (claim C2) -/

theorem foldr_min_spec (l : List Nat) :
    (l = [] ∧ l.foldr
        (fun x acc =>
          match acc with
          | none => some x
          | some y => some (Nat.min x y)) none = none) ∨
      (∃ x, l.foldr
          (fun x acc =>
            match acc with
            | none => some x
            | some y => some (Nat.min x y)) none = some x ∧
        x ∈ l ∧ ∀ y ∈ l, x ≤ y) := by
  induction l with
  | nil => exact Or.inl ⟨rfl, rfl⟩
  | cons a l ih =>
    right
    rcases ih with ⟨hnil, hfold⟩ | ⟨x, hx, hxm, hxb⟩
    · subst hnil
      exact ⟨a, rfl, by simp, by simp⟩
    · refine ⟨Nat.min a x, by simp [hx], ?_, ?_⟩
      · rcases Nat.le_total a x with h | h
        · rw [show Nat.min a x = a from Nat.min_eq_left h]
          exact List.mem_cons_self _ _
        · rw [show Nat.min a x = x from Nat.min_eq_right h]
          exact List.mem_cons_of_mem _ hxm
      · intro y hy
        rcases List.mem_cons.mp hy with rfl | hy'
        · exact Nat.min_le_left _ _
        · exact Nat.le_trans (Nat.min_le_right _ _) (hxb y hy')

/-- `writeLo` is either `version + 1` (empty active set) or the least
active version. -/
theorem writeLo_spec (s : TxState) :
    (s.active = [] ∧ s.writeLo = s.version + 1) ∨
      (s.writeLo ∈ s.active ∧ ∀ v ∈ s.active, s.writeLo ≤ v) := by
  unfold TxState.writeLo
  rcases foldr_min_spec s.active with ⟨hnil, hfold⟩ | ⟨x, hx, hxm, hxb⟩
  · rw [hfold]
    exact Or.inl ⟨hnil, rfl⟩
  · rw [hx]
    exact Or.inr ⟨hxm, hxb⟩

theorem mem_storedVersions {m : Mem} (hm : WfMem m) {key : List Nat}
    (hkey : ∀ b ∈ key, b < 256) {lo v : Nat} :
    v ∈ storedVersions m key lo ↔
      v < 2 ^ 64 ∧ lo ≤ v ∧
        ∃ val, ((MvccKey.Version key v).encode, val) ∈ m := by
  unfold storedVersions
  rw [List.mem_filterMap]
  constructor
  · rintro ⟨e, hmem, hfe⟩
    obtain ⟨mk, hdec, hwf, henc, -⟩ := entryWf_elim (hm.2 e hmem)
    rw [hdec] at hfe
    cases mk with
    | Version k w =>
      simp only at hfe
      split at hfe
      · cases hfe
        rename_i hcond
        obtain ⟨rfl, hlo⟩ := hcond
        refine ⟨hwf.1, hlo, e.2, ?_⟩
        rw [← henc]
        exact hmem
      · cases hfe
    | NextVersion => cases hfe
    | TxnActive w => cases hfe
    | TxnWrite w k => cases hfe
  · rintro ⟨hv64, hlo, val, hmem⟩
    refine ⟨((MvccKey.Version key v).encode, val), hmem, ?_⟩
    simp only
    rw [MvccKey.decode_encode (k := .Version key v) ⟨hv64, hkey⟩]
    simp [hlo]

/-- In a list that is pairwise `r`-increasing, the last element is
`r`-above every other element. -/
theorem pairwise_getLast? {α : Type} {r : α → α → Prop}
    {l : List α} {a : α} (hp : l.Pairwise r) (hl : l.getLast? = some a) :
    ∀ b ∈ l, b = a ∨ r b a := by
  rw [← List.head?_reverse] at hl
  have hp' : l.reverse.Pairwise (fun x y => r y x) :=
    List.pairwise_reverse.mpr hp
  cases hrev : l.reverse with
  | nil => rw [hrev] at hl; cases hl
  | cons hd t =>
    rw [hrev] at hl hp'
    have hda : hd = a := by simpa using hl
    intro b hb
    have hbm : b ∈ hd :: t := by
      rw [← hrev, List.mem_reverse]
      exact hb
    rcases List.mem_cons.mp hbm with rfl | hbt
    · exact Or.inl hda
    · have hr := (List.pairwise_cons.mp hp').1 b hbt
      rw [hda] at hr
      exact Or.inr hr

theorem leBytes_length (k n : Nat) : (leBytes k n).length = k := by
  induction k generalizing n with
  | zero => rfl
  | succ k ih => simp [leBytes, ih]

theorem leVal_leBytes_le (k n : Nat) : leVal (leBytes k n) ≤ n := by
  induction k generalizing n with
  | zero => exact Nat.zero_le n
  | succ k ih =>
    have h1 := ih (n / 256)
    have h2 := Nat.div_add_mod n 256
    show leVal (n % 256 :: leBytes k (n / 256)) ≤ n
    have h3 : leVal (n % 256 :: leBytes k (n / 256)) =
        leVal (leBytes k (n / 256)) * 256 + n % 256 := rfl
    omega

/-- Encoded optional payloads always decode (the length prefix can only
shrink under the 64-bit truncation, never exceed the body). -/
theorem bincodeOptDec_isSome (v : Option (List Nat)) :
    (bincodeOptDec (bincodeOptEnc v)).isSome = true := by
  cases v with
  | none => rfl
  | some l =>
    show (bincodeOptDec (1 :: (u64LE l.length ++ l))).isSome = true
    have hlen : (u64LE l.length ++ l).length = 8 + l.length := by
      simp [u64LE, leBytes_length]
    simp only [bincodeOptDec, if_true]
    have hc1 : ¬ (u64LE l.length ++ l).length < 8 := by
      rw [hlen]
      omega
    have htake : (u64LE l.length ++ l).take 8 = u64LE l.length := by
      have h8 : (8 : Nat) = (u64LE l.length).length := by
        simp [u64LE, leBytes_length]
      rw [h8, List.take_left]
    have hdrop : (u64LE l.length ++ l).drop 8 = l := by
      have h8 : (8 : Nat) = (u64LE l.length).length := by
        simp [u64LE, leBytes_length]
      rw [h8, List.drop_left]
    rw [if_neg hc1, htake, hdrop]
    have hle : leVal (u64LE l.length) ≤ l.length := leVal_leBytes_le 8 _
    rw [if_neg (Nat.not_lt.mpr hle)]
    rfl

/-- Inserting a well-typed encoded key (with a decodable payload if it is
a `Version` record) preserves well-formedness. -/
theorem WfMem_insert {m : Mem} (hm : WfMem m) (mk : MvccKey)
    (hwf : mk.Wf) (val : List Nat)
    (hval : ∀ k v, mk = .Version k v → (bincodeOptDec val).isSome = true) :
    WfMem (m.insert mk.encode val) := by
  refine ⟨Smap.sorted_insert hm.1 _ _, ?_⟩
  intro e he
  rcases Smap.mem_insert_sorted hm.1 he with rfl | ⟨hmem, -⟩
  · unfold entryWf
    rw [MvccKey.decode_encode hwf]
    refine ⟨hwf, rfl, ?_⟩
    cases mk with
    | Version k v => exact hval k v rfl
    | NextVersion => trivial
    | TxnActive v => trivial
    | TxnWrite v k => trivial
  · exact hm.2 e hmem

theorem WfMem_txWriteApply {m : Mem} (hm : WfMem m) {s : TxState}
    (hs : s.version < 2 ^ 64) {key : List Nat}
    (hkey : ∀ b ∈ key, b < 256) (value : Option (List Nat)) :
    WfMem (txWriteApply m s key value) := by
  unfold txWriteApply memSet
  refine WfMem_insert ?_ (.Version key s.version) ⟨hs, hkey⟩ _ ?_
  · exact WfMem_insert hm (.TxnWrite s.version key) ⟨hs, hkey⟩ []
      (by intro k v h; cases h)
  · intro k v h
    exact bincodeOptDec_isSome value

/-- The new `Version` binding is present after `txWriteApply`. -/
theorem txWriteApply_version_mem (m : Mem) (s : TxState) (key : List Nat)
    (value : Option (List Nat)) :
    ((MvccKey.Version key s.version).encode, bincodeOptEnc value) ∈
      txWriteApply m s key value := by
  unfold txWriteApply memSet
  generalize m.insert (MvccKey.TxnWrite s.version key).encode [] = m'
  induction m' with
  | nil => simp [Smap.insert]
  | cons f rest ih =>
    obtain ⟨fk, fv⟩ := f
    simp only [Smap.insert]
    by_cases h₁ : lexLt (MvccKey.Version key s.version).encode fk
    · rw [if_pos h₁]
      exact List.mem_cons_self _ _
    · by_cases h₂ : (MvccKey.Version key s.version).encode = fk
      · rw [if_neg h₁, if_pos h₂]
        exact List.mem_cons_self _ _
      · rw [if_neg h₁, if_neg h₂]
        exact List.mem_cons_of_mem _ ih

/-- The stored payload of a well-formed `Version` record decodes. -/
theorem version_entry_isSome {m : Mem} (hm : WfMem m) {key : List Nat}
    (hkey : ∀ b ∈ key, b < 256) {v : Nat} {val : List Nat}
    (hv : v < 2 ^ 64) (hmem : ((MvccKey.Version key v).encode, val) ∈ m) :
    (bincodeOptDec val).isSome = true := by
  obtain ⟨mk, hdec, hwf, henc, hval⟩ := entryWf_elim (hm.2 _ hmem)
  have hd2 : MvccKey.decode (MvccKey.Version key v).encode =
      some (.Version key v) := MvccKey.decode_encode ⟨hv, hkey⟩
  rw [hdec] at hd2
  cases hd2
  exact hval key v rfl

/-- Comparing two encoded `Version` records of the same user key compares
their versions. -/
theorem version_encode_lt {key : List Nat} (hkey : ∀ b ∈ key, b < 256)
    {v w : Nat} (hv : v < 2 ^ 64) (hw : w < 2 ^ 64)
    (h : lexLt (MvccKey.Version key v).encode
      (MvccKey.Version key w).encode = true) : v < w := by
  have hwv : (MvccKey.Version key v).Wf := ⟨hv, hkey⟩
  have hww : (MvccKey.Version key w).Wf := ⟨hw, hkey⟩
  rw [MvccKey.encode_lexLt hwv hww] at h
  simp only [MvccKey.keyLt, MvccKey.tag, Nat.lt_irrefl, if_false,
    MvccKey.tupleLt, lexLt_irrefl, Bool.false_or, Bool.and_eq_true,
    decide_eq_true_eq] at h
  exact h.2

theorem list_contains_iff {l : List Nat} {a : Nat} :
    l.contains a = true ↔ a ∈ l := by
  simp

theorem getLast?_mem_self {α : Type} {l : List α} {a : α}
    (h : l.getLast? = some a) : a ∈ l := by
  obtain ⟨hne, heq⟩ := List.mem_getLast?_eq_getLast (Option.mem_def.mpr h)
  rw [heq]
  exact List.getLast_mem hne

/-- The conflict half of claim C2: `write_inner` fails with
`WriteConflict` exactly when the greatest-versioned stored record for the
key at or above `writeLo` exists and is not visible. -/
theorem write_conflict_iff (m : Mem) (s : TxState) (key : List Nat)
    (val : Option (List Nat)) (hm : WfMem m)
    (hkey : ∀ b ∈ key, b < 256) (hlo : s.writeLo < 2 ^ 64) :
    (txWriteInner m s key val = .conflict ↔
      specWriteConflict m s key = true) := by
  have hmax64 : (2 ^ 64 - 1 : Nat) < 2 ^ 64 := by norm_num
  unfold txWriteInner
  cases hlast : (memScan m (.incl (MvccKey.Version key s.writeLo).encode)
      (.incl (MvccKey.Version key (2 ^ 64 - 1)).encode)).getLast? with
  | none =>
    have hR : memScan m (.incl (MvccKey.Version key s.writeLo).encode)
        (.incl (MvccKey.Version key (2 ^ 64 - 1)).encode) = [] := by
      rwa [List.getLast?_eq_none_iff] at hlast
    have hsv : storedVersions m key s.writeLo = [] := by
      refine List.eq_nil_iff_forall_not_mem.mpr (fun v hv => ?_)
      obtain ⟨hv64, hvlo, vl, hvm⟩ := (mem_storedVersions hm hkey).mp hv
      have : ((MvccKey.Version key v).encode, vl) ∈
          memScan m (.incl (MvccKey.Version key s.writeLo).encode)
            (.incl (MvccKey.Version key (2 ^ 64 - 1)).encode) :=
        (mem_version_scan hm hkey hlo hmax64).mpr
          ⟨hvm, v, rfl, hvlo, by omega, hv64,
            version_entry_isSome hm hkey hv64 hvm⟩
      rw [hR] at this
      simp at this
    unfold specWriteConflict
    rw [hsv]
    simp [listMax?]
  | some e =>
    obtain ⟨ek, ev⟩ := e
    have heR : (ek, ev) ∈
        memScan m (.incl (MvccKey.Version key s.writeLo).encode)
          (.incl (MvccKey.Version key (2 ^ 64 - 1)).encode) :=
      getLast?_mem_self hlast
    obtain ⟨hem, w, henc, hwlo, -, hw64, -⟩ :=
      (mem_version_scan hm hkey hlo hmax64).mp heR
    simp only at henc
    have hdec : MvccKey.decode ek = some (.Version key w) := by
      rw [henc]
      exact MvccKey.decode_encode ⟨hw64, hkey⟩
    have hwmem : w ∈ storedVersions m key s.writeLo :=
      (mem_storedVersions hm hkey).mpr
        ⟨hw64, hwlo, ev, by rw [← henc]; exact hem⟩
    have hsvne : storedVersions m key s.writeLo ≠ [] := by
      intro h
      rw [h] at hwmem
      simp at hwmem
    obtain ⟨x, hx, hxm, hxb⟩ := listMax?_spec hsvne
    have hxw : x = w := by
      obtain ⟨hx64, hxlo, vl, hxmem⟩ := (mem_storedVersions hm hkey).mp hxm
      have hxR : ((MvccKey.Version key x).encode, vl) ∈
          memScan m (.incl (MvccKey.Version key s.writeLo).encode)
            (.incl (MvccKey.Version key (2 ^ 64 - 1)).encode) :=
        (mem_version_scan hm hkey hlo hmax64).mpr
          ⟨hxmem, x, rfl, hxlo, by omega, hx64,
            version_entry_isSome hm hkey hx64 hxmem⟩
      have hsorted : (memScan m
          (.incl (MvccKey.Version key s.writeLo).encode)
          (.incl (MvccKey.Version key (2 ^ 64 - 1)).encode)).Pairwise
          (fun a b => lexLt a.1 b.1 = true) :=
        hm.1.sublist (List.filter_sublist m)
      rcases pairwise_getLast? hsorted hlast _ hxR with heq | hlt
      · have : (MvccKey.Version key x).encode = ek :=
          congrArg Prod.fst heq
        rw [henc] at this
        exact version_encode_inj hkey hx64 hw64 this
      · have : lexLt (MvccKey.Version key x).encode
            (MvccKey.Version key w).encode = true := by
          rw [← henc]
          exact hlt
        have := version_encode_lt hkey hx64 hw64 this
        exact absurd (hxb w hwmem) (by omega)
    subst hxw
    have hspec : specWriteConflict m s key = !s.isVisible x := by
      unfold specWriteConflict
      rw [hx]
    simp only [hdec, hspec]
    cases hvis : s.isVisible x with
    | true => simp [hvis]
    | false => simp [hvis]

/-- When a write passes the conflict check, every stored version of the
key is at most the writer's version (and the writes are applied). -/
theorem write_ok_bound {m m' : Mem} {s : TxState} {key : List Nat}
    {val : Option (List Nat)} (hm : WfMem m)
    (hkey : ∀ b ∈ key, b < 256) (hlo : s.writeLo < 2 ^ 64)
    (hlole : s.writeLo ≤ s.version + 1)
    (hok : txWriteInner m s key val = .ok m') :
    m' = txWriteApply m s key val ∧
      ∀ v, v < 2 ^ 64 →
        (∃ vl, ((MvccKey.Version key v).encode, vl) ∈ m) →
        v ≤ s.version := by
  have hmax64 : (2 ^ 64 - 1 : Nat) < 2 ^ 64 := by norm_num
  unfold txWriteInner at hok
  cases hlast : (memScan m (.incl (MvccKey.Version key s.writeLo).encode)
      (.incl (MvccKey.Version key (2 ^ 64 - 1)).encode)).getLast? with
  | none =>
    rw [hlast] at hok
    simp only at hok
    cases hok
    refine ⟨rfl, ?_⟩
    intro v hv64 ⟨vl, hvm⟩
    by_cases hvlo : s.writeLo ≤ v
    · exfalso
      have : ((MvccKey.Version key v).encode, vl) ∈
          memScan m (.incl (MvccKey.Version key s.writeLo).encode)
            (.incl (MvccKey.Version key (2 ^ 64 - 1)).encode) :=
        (mem_version_scan hm hkey hlo hmax64).mpr
          ⟨hvm, v, rfl, hvlo, by omega, hv64,
            version_entry_isSome hm hkey hv64 hvm⟩
      rw [List.getLast?_eq_none_iff.mp hlast] at this
      simp at this
    · omega
  | some e =>
    obtain ⟨ek, ev⟩ := e
    rw [hlast] at hok
    have heR : (ek, ev) ∈
        memScan m (.incl (MvccKey.Version key s.writeLo).encode)
          (.incl (MvccKey.Version key (2 ^ 64 - 1)).encode) :=
      getLast?_mem_self hlast
    obtain ⟨hem, w, henc, hwlo, -, hw64, -⟩ :=
      (mem_version_scan hm hkey hlo hmax64).mp heR
    simp only at henc
    have hdec : MvccKey.decode ek = some (.Version key w) := by
      rw [henc]
      exact MvccKey.decode_encode ⟨hw64, hkey⟩
    simp only [hdec] at hok
    cases hvis : s.isVisible w with
    | false =>
      rw [hvis] at hok
      simp at hok
    | true =>
      rw [hvis] at hok
      simp only [if_pos rfl] at hok
      cases hok
      refine ⟨rfl, ?_⟩
      have hwver : w ≤ s.version := isVisible_le hvis
      intro v hv64 ⟨vl, hvm⟩
      by_cases hvlo : s.writeLo ≤ v
      · have hvR : ((MvccKey.Version key v).encode, vl) ∈
            memScan m (.incl (MvccKey.Version key s.writeLo).encode)
              (.incl (MvccKey.Version key (2 ^ 64 - 1)).encode) :=
          (mem_version_scan hm hkey hlo hmax64).mpr
            ⟨hvm, v, rfl, hvlo, by omega, hv64,
              version_entry_isSome hm hkey hv64 hvm⟩
        have hsorted : (memScan m
            (.incl (MvccKey.Version key s.writeLo).encode)
            (.incl (MvccKey.Version key (2 ^ 64 - 1)).encode)).Pairwise
            (fun a b => lexLt a.1 b.1 = true) :=
          hm.1.sublist (List.filter_sublist m)
        rcases pairwise_getLast? hsorted hlast _ hvR with heq | hlt
        · have : (MvccKey.Version key v).encode = ek :=
            congrArg Prod.fst heq
          rw [henc] at this
          have := version_encode_inj hkey hv64 hw64 this
          omega
        · have hlt' : lexLt (MvccKey.Version key v).encode
              (MvccKey.Version key w).encode = true := by
            rw [← henc]
            exact hlt
          have := version_encode_lt hkey hv64 hw64 hlt'
          omega
      · omega

/-- The half of claim C2 that does hold: after one of two concurrent
transactions writes a key successfully, the other's write of the same
key fails with `WriteConflict`. -/
theorem write_first_wins {m m' : Mem} {sA sB : TxState} {key : List Nat}
    {va vb : Option (List Nat)} (hm : WfMem m)
    (hkey : ∀ b ∈ key, b < 256)
    (hA64 : sA.version + 1 < 2 ^ 64) (hB64 : sB.version + 1 < 2 ^ 64)
    (hAact : ∀ v ∈ sA.active, v < sA.version)
    (hBact : ∀ v ∈ sB.active, v < sB.version)
    (hconc : (sA.version < sB.version ∧ sA.version ∈ sB.active) ∨
      (sB.version < sA.version ∧ sB.version ∈ sA.active))
    (hok : txWriteInner m sA key va = .ok m') :
    txWriteInner m' sB key vb = .conflict := by
  have hloA : sA.writeLo < 2 ^ 64 ∧ sA.writeLo ≤ sA.version + 1 := by
    rcases writeLo_spec sA with ⟨-, heq⟩ | ⟨hmem, -⟩
    · omega
    · have := hAact _ hmem
      omega
  have hloB : sB.writeLo < 2 ^ 64 := by
    rcases writeLo_spec sB with ⟨-, heq⟩ | ⟨hmem, -⟩
    · omega
    · have := hBact _ hmem
      omega
  obtain ⟨rfl, hbound⟩ := write_ok_bound hm hkey hloA.1 hloA.2 hok
  have hm' : WfMem (txWriteApply m sA key va) :=
    WfMem_txWriteApply hm (by omega) hkey va
  have ha64 : sA.version < 2 ^ 64 := by omega
  rw [write_conflict_iff _ _ _ _ hm' hkey hloB]
  -- the new `Version(key, A.version)` record is in range for B's check
  have hloBa : sB.writeLo ≤ sA.version := by
    rcases writeLo_spec sB with ⟨hemp, heq⟩ | ⟨hmem, hmin⟩
    · rcases hconc with ⟨-, hin⟩ | ⟨hlt, -⟩
      · rw [hemp] at hin
        simp at hin
      · omega
    · rcases hconc with ⟨-, hin⟩ | ⟨hlt, -⟩
      · exact hmin _ hin
      · have := hBact _ hmem
        omega
  have hamem : sA.version ∈
      storedVersions (txWriteApply m sA key va) key sB.writeLo :=
    (mem_storedVersions hm' hkey).mpr
      ⟨ha64, hloBa, bincodeOptEnc va, txWriteApply_version_mem m sA key va⟩
  have hne : storedVersions (txWriteApply m sA key va) key sB.writeLo ≠
      [] := by
    intro h
    rw [h] at hamem
    simp at hamem
  obtain ⟨x, hx, hxm, hxb⟩ := listMax?_spec hne
  have hxa : x = sA.version := by
    obtain ⟨hx64, -, vl, hxmem⟩ := (mem_storedVersions hm' hkey).mp hxm
    have hsorted1 : (Smap.insert (MvccKey.TxnWrite sA.version key).encode
        [] m).Sorted := Smap.sorted_insert hm.1 _ _
    rcases Smap.mem_insert_sorted hsorted1 hxmem with heq | ⟨hmem1, -⟩
    · have : (MvccKey.Version key x).encode =
          (MvccKey.Version key sA.version).encode :=
        congrArg Prod.fst heq
      exact version_encode_inj hkey hx64 ha64 this
    · rcases Smap.mem_insert_sorted hm.1 hmem1 with heq | ⟨hmem2, -⟩
      · exfalso
        have : (MvccKey.Version key x).encode =
            (MvccKey.TxnWrite sA.version key).encode :=
          congrArg Prod.fst heq
        have hd1 := MvccKey.decode_encode
          (k := .Version key x) ⟨hx64, hkey⟩
        rw [this, MvccKey.decode_encode
          (k := .TxnWrite sA.version key) ⟨ha64, hkey⟩] at hd1
        cases hd1
      · have hle := hbound x hx64 ⟨vl, hmem2⟩
        have hge := hxb _ hamem
        omega
  subst hxa
  unfold specWriteConflict
  rw [hx]
  have hinvis : sB.isVisible sA.version = false := by
    unfold TxState.isVisible
    rcases hconc with ⟨-, hin⟩ | ⟨hlt, -⟩
    · rw [if_pos (list_contains_iff.mpr hin)]
    · by_cases hc : sB.active.contains sA.version
      · rw [if_pos hc]
      · rw [if_neg hc]
        simp
        omega
  simp [hinvis]

/-- C2, counterexample: a fresh engine; transactions C, A, B begin in
that order (versions 1, 2, 3 — A and B are each live at the other's
begin and neither has ended); C writes the key and commits; then BOTH
A's `set` and B's `delete` of that key return `WriteConflict`, so the
two concurrent writes do not have "exactly one" winner. -/
theorem write_conflict_not_exactly_one_cex :
    (do
      let p1 ← txBegin []
      let p2 ← txBegin p1.1
      let p3 ← txBegin p2.1
      let m4 ← writeOk (txSet p3.1 p1.2 [107] [1])
      let m5 := txCommit m4 p1.2
      pure (decide (p2.2.version ∈ p3.2.active ∧
          p2.2.version < p3.2.version),
        txSet m5 p2.2 [107] [2], txDelete m5 p3.2 [107])
      : Option (Bool × WriteResult × WriteResult)) =
      some (true, WriteResult.conflict, WriteResult.conflict) := by decide

/-- C2 (amended): for two transactions live at each other's begin that
both write the same key, at most one write succeeds: once the first
succeeds, the other returns `WriteConflict` (both can fail when a third
concurrent or newer transaction already wrote the key).  Moreover the
check scans `Version(key, lo) ..= Version(key, u64::MAX)` with
`lo = min(active)` or `version + 1`, failing exactly when the
greatest-versioned entry in that range exists and is not visible. -/
theorem mvcc_write_conflict_detection :
    (∀ (m m' : Mem) (sA sB : TxState) (key : List Nat)
      (va vb : Option (List Nat)), WfMem m → (∀ b ∈ key, b < 256) →
      sA.version + 1 < 2 ^ 64 → sB.version + 1 < 2 ^ 64 →
      (∀ v ∈ sA.active, v < sA.version) →
      (∀ v ∈ sB.active, v < sB.version) →
      ((sA.version < sB.version ∧ sA.version ∈ sB.active) ∨
        (sB.version < sA.version ∧ sB.version ∈ sA.active)) →
      txWriteInner m sA key va = .ok m' →
      txWriteInner m' sB key vb = .conflict) ∧
    (∀ (m : Mem) (s : TxState) (key : List Nat)
      (val : Option (List Nat)), WfMem m → (∀ b ∈ key, b < 256) →
      s.writeLo < 2 ^ 64 →
      (txWriteInner m s key val = .conflict ↔
        specWriteConflict m s key = true)) :=
  ⟨fun _ _ _ _ _ _ _ hm hk h1 h2 h3 h4 h5 h6 =>
      write_first_wins hm hk h1 h2 h3 h4 h5 h6,
    fun m s key val hm hk hlo => write_conflict_iff m s key val hm hk hlo⟩

/-- C2 witness: both halves applied at concrete inputs — an empty
engine, writer A at version 2 and B at version 3 with A in B's active
set. -/
theorem mvcc_write_conflict_detection_witness :
    txWriteInner (txWriteApply [] (TxState.mk 2 []) [7] (some [1]))
        (TxState.mk 3 [2]) [7] (some [2]) = .conflict ∧
      (txWriteInner [] (TxState.mk 1 []) [7] none = .conflict ↔
        specWriteConflict [] (TxState.mk 1 []) [7] = true) :=
  ⟨mvcc_write_conflict_detection.1 [] _ (TxState.mk 2 [])
      (TxState.mk 3 [2]) [7] (some [1]) (some [2]) (by decide) (by decide)
      (by decide) (by decide) (by decide) (by decide)
      (by decide) (by decide),
    mvcc_write_conflict_detection.2 [] (TxState.mk 1 []) [7] none
      (by decide) (by decide) (by decide)⟩

/-- The last element of a cons with a non-empty tail is the last of the
tail. -/
theorem getLast?_cons_of_ne_nil {a : Nat} {l : List Nat} (h : l ≠ []) :
    (a :: l).getLast? = l.getLast? := by
  cases l with
  | nil => exact absurd rfl h
  | cons y ys => rw [List.getLast?_cons_cons]

/-- The last byte of a big-endian encoding is the value modulo 256. -/
theorem beBytes_getLast? (n v : Nat) :
    (beBytes (n + 1) v).getLast? = some (v % 256) := by
  induction n generalizing v with
  | zero =>
    show ((v / 256 ^ 0) % 256 :: beBytes 0 (v % 256 ^ 0)).getLast? = _
    simp [beBytes]
  | succ n ih =>
    show ((v / 256 ^ (n + 1)) % 256
        :: beBytes (n + 1) (v % 256 ^ (n + 1))).getLast? = _
    rw [getLast?_cons_of_ne_nil (by
      intro hnil
      have hlen := beBytes_length (n + 1) (v % 256 ^ (n + 1))
      rw [hnil] at hlen
      simp at hlen)]
    rw [ih (v % 256 ^ (n + 1))]
    rw [Nat.mod_mod_of_dvd v (dvd_pow_self 256 n.succ_ne_zero)]

/-- Folding `delete` over a key list preserves sortedness. -/
theorem memDelete_foldl_sorted :
    ∀ (ks : List (List Nat)) (m : Mem), m.Sorted →
      Smap.Sorted (ks.foldl (fun acc kk => memDelete acc kk) m) := by
  intro ks
  induction ks with
  | nil => intro m hs; exact hs
  | cons kk ks ih => intro m hs; exact ih _ (Smap.sorted_erase hs _)

/-- Lookup after folding `delete` over a key list: deleted keys are
gone, every other key is untouched. -/
theorem memDelete_foldl_get? :
    ∀ (ks : List (List Nat)) (m : Mem), m.Sorted → ∀ k : List Nat,
      memGet (ks.foldl (fun acc kk => memDelete acc kk) m) k
        = if k ∈ ks then none else memGet m k := by
  intro ks
  induction ks with
  | nil => intro m hs k; simp
  | cons kk ks ih =>
    intro m hs k
    show memGet (ks.foldl _ (memDelete m kk)) k = _
    rw [ih (memDelete m kk) (Smap.sorted_erase hs _) k]
    show (if k ∈ ks then none else Smap.get? (Smap.erase kk m) k) = _
    by_cases h1 : k ∈ ks
    · rw [if_pos h1, if_pos (List.mem_cons_of_mem _ h1)]
    · rw [if_neg h1, Smap.get?_erase hs]
      by_cases h2 : k = kk
      · rw [if_pos h2, if_pos (by rw [h2]; exact List.mem_cons_self _ _)]
      · rw [if_neg h2, if_neg (by simp [h1, h2])]
        rfl

/-- The key list `rollback` collects contains, for every scanned entry,
the entry's own key and — when that key decodes as a `TxnWrite`
marker — the matching `Version` key. -/
theorem rollbackKeys_mem (s : TxState) :
    ∀ (entries : List (List Nat × List Nat)) (ks : List (List Nat)),
    rollbackKeys s entries = some ks →
    ∀ e ∈ entries, e.1 ∈ ks ∧
      ∀ v' raw, MvccKey.decode e.1 = some (.TxnWrite v' raw) →
        (MvccKey.Version raw s.version).encode ∈ ks := by
  intro entries
  induction entries with
  | nil => intro ks h e he; simp at he
  | cons ent rest ih =>
    intro ks h e he
    obtain ⟨k0, val0⟩ := ent
    unfold rollbackKeys at h
    cases hd : MvccKey.decode k0 with
    | none => simp only [hd] at h; exact Option.noConfusion h
    | some mk =>
      cases mk with
      | NextVersion => simp only [hd] at h; exact Option.noConfusion h
      | TxnActive v0 => simp only [hd] at h; exact Option.noConfusion h
      | Version k1 v1 => simp only [hd] at h; exact Option.noConfusion h
      | TxnWrite v0 raw0 =>
        simp only [hd] at h
        rw [Option.map_eq_some'] at h
        obtain ⟨ks', hks', rfl⟩ := h
        rcases List.mem_cons.mp he with rfl | hrest
        · constructor
          · exact List.mem_cons_of_mem _ (List.mem_cons_self _ _)
          · intro v' raw hdec
            rw [hd] at hdec
            injection hdec with hmk
            injection hmk with hv0 hraw0
            rw [← hraw0]
            exact List.mem_cons_self _ _
        · have hih := ih ks' hks' e hrest
          exact ⟨List.mem_cons_of_mem _ (List.mem_cons_of_mem _ hih.1),
            fun v' raw hdec =>
              List.mem_cons_of_mem _
                (List.mem_cons_of_mem _ (hih.2 v' raw hdec))⟩

/-- C4: after `T.rollback()` returns successfully, no `TxnWrite(T.version, *)`
or `TxnActive(T.version)` record remains, and for every key `k` written
by `T` (i.e. with a `TxnWrite(T.version, k)` marker present) the record
`Version(k, T.version)` is gone as well, so no transaction can ever see
`T`'s writes.  (When the low byte of `T.version` is `0xFF` on a
non-empty engine, `rollback` panics inside `scan_prefix` before
deleting anything and never returns `Ok`, so the success-guarded claim
is not violated there: `txRollback` returns `none`.) -/
theorem rollback_erases_writes (m : Mem) (s : TxState) (m' : Mem)
    (hwf : WfMem m) (hv : s.version < 2 ^ 64)
    (h : txRollback m s = some m') :
    memGet m' (MvccKey.TxnActive s.version).encode = none ∧
    ∀ k : List Nat, (∀ b ∈ k, b < 256) →
      memGet m' (MvccKey.TxnWrite s.version k).encode = none ∧
      (memGet m (MvccKey.TxnWrite s.version k).encode ≠ none →
        memGet m' (MvccKey.Version k s.version).encode = none) := by
  obtain ⟨hsort, hent⟩ := hwf
  unfold txRollback at h
  rw [Option.bind_eq_some] at h
  obtain ⟨entries, hscan, h⟩ := h
  rw [Option.map_eq_some'] at h
  obtain ⟨ks, hks, rfl⟩ := h
  have hune : u64BE s.version ≠ [] := by
    intro hnil
    have hlen := beBytes_length 8 s.version
    rw [show u64BE s.version = beBytes 8 s.version from rfl] at hnil
    rw [hnil] at hlen
    simp at hlen
  have hpl : ((MvccKeyPrefix.TxnWrite s.version).encode).getLast?
      = some (s.version % 256) := by
    show (2 :: u64BE s.version).getLast? = _
    rw [getLast?_cons_of_ne_nil hune]
    exact beBytes_getLast? 7 s.version
  have hentries : entries = m.filter
      (fun e => decide ((MvccKeyPrefix.TxnWrite s.version).encode <+: e.1)) :=
    memScanPrefixChecked_entries m _ _ hpl (by omega) entries hscan
  have hfs : Smap.Sorted (ks.foldl (fun acc kk => memDelete acc kk) m) :=
    memDelete_foldl_sorted ks m hsort
  constructor
  · show Smap.get? (Smap.erase _ _) _ = none
    rw [Smap.get?_erase hfs, if_pos rfl]
  · intro k hk
    have henc : (MvccKeyPrefix.TxnWrite s.version).encode ++ escBytes k
        = (MvccKey.TxnWrite s.version k).encode := by
      show (2 :: u64BE s.version) ++ escBytes k = 2 :: (u64BE s.version ++ escBytes k)
      rw [List.cons_append]
    have hne1 : (MvccKey.TxnWrite s.version k).encode
        ≠ (MvccKey.TxnActive s.version).encode := by
      show 2 :: (u64BE s.version ++ escBytes k) ≠ 1 :: u64BE s.version
      simp
    have hne2 : (MvccKey.Version k s.version).encode
        ≠ (MvccKey.TxnActive s.version).encode := by
      show 3 :: (escBytes k ++ u64BE s.version) ≠ 1 :: u64BE s.version
      simp
    constructor
    · show Smap.get? (Smap.erase _ _) _ = none
      rw [Smap.get?_erase hfs, if_neg hne1]
      rw [show Smap.get? (ks.foldl (fun acc kk => memDelete acc kk) m)
            (MvccKey.TxnWrite s.version k).encode
          = memGet (ks.foldl (fun acc kk => memDelete acc kk) m)
            (MvccKey.TxnWrite s.version k).encode from rfl]
      rw [memDelete_foldl_get? ks m hsort]
      by_cases hmem : (MvccKey.TxnWrite s.version k).encode ∈ ks
      · rw [if_pos hmem]
      · rw [if_neg hmem]
        cases hg : memGet m (MvccKey.TxnWrite s.version k).encode with
        | none => rfl
        | some val =>
          exfalso
          apply hmem
          have hmem_m : ((MvccKey.TxnWrite s.version k).encode, val) ∈ m :=
            Smap.mem_of_get? hg
          have hfil : ((MvccKey.TxnWrite s.version k).encode, val) ∈ entries := by
            rw [hentries]
            refine List.mem_filter.mpr ⟨hmem_m, ?_⟩
            simp only [decide_eq_true_eq]
            exact ⟨escBytes k, henc⟩
          exact (rollbackKeys_mem s entries ks hks _ hfil).1
    · intro hne
      cases hg : memGet m (MvccKey.TxnWrite s.version k).encode with
      | none => exact absurd hg hne
      | some val =>
        have hmem_m : ((MvccKey.TxnWrite s.version k).encode, val) ∈ m :=
          Smap.mem_of_get? hg
        have hfil : ((MvccKey.TxnWrite s.version k).encode, val) ∈ entries := by
          rw [hentries]
          refine List.mem_filter.mpr ⟨hmem_m, ?_⟩
          simp only [decide_eq_true_eq]
          exact ⟨escBytes k, henc⟩
        have hwfk : (MvccKey.TxnWrite s.version k).Wf := ⟨hv, hk⟩
        have hdec : MvccKey.decode (MvccKey.TxnWrite s.version k).encode
            = some (MvccKey.TxnWrite s.version k) :=
          MvccKey.decode_encode hwfk
        have hv_in : (MvccKey.Version k s.version).encode ∈ ks :=
          (rollbackKeys_mem s entries ks hks _ hfil).2 s.version k hdec
        show Smap.get? (Smap.erase _ _) _ = none
        rw [Smap.get?_erase hfs, if_neg hne2]
        rw [show Smap.get? (ks.foldl (fun acc kk => memDelete acc kk) m)
              (MvccKey.Version k s.version).encode
            = memGet (ks.foldl (fun acc kk => memDelete acc kk) m)
              (MvccKey.Version k s.version).encode from rfl]
        rw [memDelete_foldl_get? ks m hsort, if_pos hv_in]

/-- C4 witness: a well-formed state holding the transaction's
`TxnActive`, `TxnWrite` and `Version` records; rollback succeeds and
the theorem's conclusions hold at the emptied engine. -/
theorem rollback_erases_writes_witness :
    WfMem [((MvccKey.TxnActive 2).encode, []),
      ((MvccKey.TxnWrite 2 [5]).encode, []),
      ((MvccKey.Version [5] 2).encode, bincodeOptEnc (some [9]))] ∧
    2 < 2 ^ 64 ∧
    txRollback [((MvccKey.TxnActive 2).encode, []),
      ((MvccKey.TxnWrite 2 [5]).encode, []),
      ((MvccKey.Version [5] 2).encode, bincodeOptEnc (some [9]))]
      (TxState.mk 2 []) = some [] ∧
    (memGet [] (MvccKey.TxnActive 2).encode = none ∧
     ∀ k : List Nat, (∀ b ∈ k, b < 256) →
       memGet [] (MvccKey.TxnWrite 2 k).encode = none ∧
       (memGet [((MvccKey.TxnActive 2).encode, []),
          ((MvccKey.TxnWrite 2 [5]).encode, []),
          ((MvccKey.Version [5] 2).encode, bincodeOptEnc (some [9]))]
          (MvccKey.TxnWrite 2 k).encode ≠ none →
        memGet [] (MvccKey.Version k 2).encode = none)) :=
  ⟨by decide, by decide, by decide,
    rollback_erases_writes _ (TxState.mk 2 []) [] (by decide) (by decide)
      (by decide)⟩

/-! ### Disk engine: record format lemmas -/

theorem take_append_len {l1 : List Nat} (l2 : List Nat) (n : Nat)
    (h : l1.length = n) : (l1 ++ l2).take n = l1 := by
  subst h; exact List.take_left _ _

theorem drop_append_len {l1 : List Nat} (l2 : List Nat) (n : Nat)
    (h : l1.length = n) : (l1 ++ l2).drop n = l2 := by
  subst h; exact List.drop_left _ _

theorem encEntry_length (k : List Nat) (v : Option (List Nat)) :
    (encEntry k v).length = 8 + k.length + (v.getD []).length := by
  cases v <;> simp [encEntry, beBytes_length] <;> omega

/-- Reading a slice that lies inside the log is unaffected by appending
more records (the stability fact behind keydir reuse after `set`). -/
theorem slice_append {log : List Nat} {off sz : Nat} (suf : List Nat)
    (h : off + sz ≤ log.length) :
    ((log ++ suf).drop off).take sz = (log.drop off).take sz := by
  rw [List.drop_append_of_le_length (by omega)]
  rw [List.take_append_of_le_length (by simp; omega)]

/-- The value slice recorded by `DiskEngine::set` reads back as the
value just written. -/
theorem slice_set_self (log k v : List Nat) :
    ((log ++ encEntry k (some v)).drop
        (log.length + (8 + k.length + v.length) - v.length)).take v.length
      = v := by
  have hsplit : log ++ encEntry k (some v) =
      (log ++ (beBytes 4 k.length ++ (beBytes 4 v.length ++ k))) ++ v := by
    simp [encEntry, List.append_assoc]
  have hplen : (log ++ (beBytes 4 k.length ++ (beBytes 4 v.length ++ k))).length
      = log.length + (8 + k.length) := by
    simp [beBytes_length]; omega
  rw [show log.length + (8 + k.length + v.length) - v.length
      = (log ++ (beBytes 4 k.length ++ (beBytes 4 v.length ++ k))).length by omega]
  rw [hsplit, List.drop_left, List.take_length]

/-- Parsing with `Log::read_entry` at the start of a freshly framed
record recovers the key and the signed value-length field. -/
theorem readEntry_at (pre k : List Nat) (v : Option (List Nat)) (suf : List Nat)
    (hk : k.length < 2 ^ 32)
    (hv : ∀ x, v = some x → x.length < 2 ^ 31) :
    readEntry (pre ++ (encEntry k v ++ suf)) pre.length =
      some (k, match v with
        | none => (-1 : Int)
        | some x => (x.length : Int)) := by
  have hA : (beBytes 4 k.length).length = 4 := beBytes_length 4 k.length
  have hbA : beVal (beBytes 4 k.length) = k.length :=
    beVal_beBytes (by norm_num at hk ⊢; omega)
  cases v with
  | none =>
    have henc : encEntry k none ++ suf
        = beBytes 4 k.length ++ ([255, 255, 255, 255] ++ (k ++ suf)) := by
      simp [encEntry, List.append_assoc]
    rw [henc]
    have hd0 : (pre ++ (beBytes 4 k.length ++ ([255, 255, 255, 255] ++ (k ++ suf)))).drop pre.length
        = beBytes 4 k.length ++ ([255, 255, 255, 255] ++ (k ++ suf)) :=
      List.drop_left _ _
    have hlen : (pre ++ (beBytes 4 k.length ++ ([255, 255, 255, 255] ++ (k ++ suf)))).length
        = pre.length + (4 + (4 + (k.length + suf.length))) := by
      simp [hA]; omega
    have htake1 : ((pre ++ (beBytes 4 k.length ++ ([255, 255, 255, 255] ++ (k ++ suf)))).drop pre.length).take 4
        = beBytes 4 k.length := by
      rw [hd0]; exact take_append_len _ 4 hA
    have hdrop4 : (pre ++ (beBytes 4 k.length ++ ([255, 255, 255, 255] ++ (k ++ suf)))).drop (pre.length + 4)
        = [255, 255, 255, 255] ++ (k ++ suf) := by
      rw [← List.drop_drop, hd0]; exact drop_append_len _ 4 hA
    have hdrop8 : (pre ++ (beBytes 4 k.length ++ ([255, 255, 255, 255] ++ (k ++ suf)))).drop (pre.length + 8)
        = k ++ suf := by
      rw [show pre.length + 8 = pre.length + 4 + 4 by omega]
      rw [← List.drop_drop, hdrop4]
      exact drop_append_len _ 4 (by rfl)
    unfold readEntry
    rw [if_pos (by rw [hlen]; omega)]
    simp only [htake1, hbA, hdrop4, hdrop8]
    rw [take_append_len _ 4 (by rfl)]
    rw [if_pos (by rw [hlen]; omega)]
    rw [List.take_left]
    norm_num [beVal]
  | some x =>
    have hx : x.length < 2 ^ 31 := hv x rfl
    have hB : (beBytes 4 x.length).length = 4 := beBytes_length 4 x.length
    have hbB : beVal (beBytes 4 x.length) = x.length :=
      beVal_beBytes (by norm_num at hx ⊢; omega)
    have henc : encEntry k (some x) ++ suf
        = beBytes 4 k.length ++ (beBytes 4 x.length ++ (k ++ (x ++ suf))) := by
      simp [encEntry, List.append_assoc]
    rw [henc]
    have hd0 : (pre ++ (beBytes 4 k.length ++ (beBytes 4 x.length ++ (k ++ (x ++ suf))))).drop pre.length
        = beBytes 4 k.length ++ (beBytes 4 x.length ++ (k ++ (x ++ suf))) :=
      List.drop_left _ _
    have hlen : (pre ++ (beBytes 4 k.length ++ (beBytes 4 x.length ++ (k ++ (x ++ suf))))).length
        = pre.length + (4 + (4 + (k.length + (x.length + suf.length)))) := by
      simp [hA, hB]
    have htake1 : ((pre ++ (beBytes 4 k.length ++ (beBytes 4 x.length ++ (k ++ (x ++ suf))))).drop pre.length).take 4
        = beBytes 4 k.length := by
      rw [hd0]; exact take_append_len _ 4 hA
    have hdrop4 : (pre ++ (beBytes 4 k.length ++ (beBytes 4 x.length ++ (k ++ (x ++ suf))))).drop (pre.length + 4)
        = beBytes 4 x.length ++ (k ++ (x ++ suf)) := by
      rw [← List.drop_drop, hd0]; exact drop_append_len _ 4 hA
    have hdrop8 : (pre ++ (beBytes 4 k.length ++ (beBytes 4 x.length ++ (k ++ (x ++ suf))))).drop (pre.length + 8)
        = k ++ (x ++ suf) := by
      rw [show pre.length + 8 = pre.length + 4 + 4 by omega]
      rw [← List.drop_drop, hdrop4]
      exact drop_append_len _ 4 hB
    unfold readEntry
    rw [if_pos (by rw [hlen]; omega)]
    simp only [htake1, hbA, hdrop4, hdrop8]
    rw [take_append_len _ 4 hB, hbB]
    rw [if_pos (by rw [hlen]; omega)]
    rw [List.take_left]
    rw [if_pos (by exact_mod_cast hx)]

theorem logOf_length_ge (ops : List DOp) : ops.length ≤ (logOf ops).length := by
  induction ops with
  | nil => simp [logOf]
  | cons op rest ih =>
    cases op <;> simp [logOf, encEntry_length] <;> omega

/-- The `Log::build_keydir` loop over a log framed as `pre ++ logOf ops`
replays exactly `replayFold` over the remaining commands. -/
theorem buildKeydirLoop_replay (ops : List DOp) :
    ∀ (fuel : Nat) (pre : List Nat) (kd : Smap (Nat × Nat)),
    (∀ o ∈ ops, o.Wf) → ops.length + 1 ≤ fuel →
    buildKeydirLoop fuel (pre ++ logOf ops) pre.length kd =
      some (replayFold kd pre.length ops) := by
  induction ops with
  | nil =>
    intro fuel pre kd _ hfuel
    obtain ⟨f, rfl⟩ : ∃ f, fuel = f + 1 := ⟨fuel - 1, by omega⟩
    simp [buildKeydirLoop, logOf, replayFold]
  | cons op rest ih =>
    intro fuel pre kd hwf hfuel
    obtain ⟨f, rfl⟩ : ∃ f, fuel = f + 1 := ⟨fuel - 1, by omega⟩
    simp only [List.length_cons] at hfuel
    have hwtail : ∀ o ∈ rest, o.Wf := fun o ho => hwf o (List.mem_cons_of_mem _ ho)
    cases op with
    | set k x =>
      obtain ⟨hkl, hxl⟩ : k.length < 2 ^ 32 ∧ x.length < 2 ^ 31 :=
        hwf _ (List.mem_cons_self _ _)
      have hlog : logOf (DOp.set k x :: rest) = encEntry k (some x) ++ logOf rest := rfl
      rw [hlog]
      have hre : readEntry (pre ++ (encEntry k (some x) ++ logOf rest)) pre.length
          = some (k, (x.length : Int)) := by
        have h := readEntry_at pre k (some x) (logOf rest) hkl
          (by intro y hy; cases hy; exact hxl)
        simpa using h
      have hfl : (pre ++ (encEntry k (some x) ++ logOf rest)).length
          = pre.length + ((8 + k.length + x.length) + (logOf rest).length) := by
        simp only [List.length_append, encEntry_length, Option.getD_some]
      have hx64 : (x.length : Int) < 2 ^ 64 := by
        have : x.length < 2 ^ 64 := lt_trans hxl (by norm_num)
        exact_mod_cast this
      have hx32 : (x.length : Int) < 2 ^ 32 := by
        have : x.length < 2 ^ 32 := lt_trans hxl (by norm_num)
        exact_mod_cast this
      have h64 : (((x.length : Int)).emod (2 ^ 64)).toNat = x.length := by
        show (((x.length : Int)) % (2 ^ 64)).toNat = x.length
        rw [Int.emod_eq_of_lt (by positivity) hx64, Int.toNat_natCast]
      have h32 : (((x.length : Int)).emod (2 ^ 32)).toNat = x.length := by
        show (((x.length : Int)) % (2 ^ 32)).toNat = x.length
        rw [Int.emod_eq_of_lt (by positivity) hx32, Int.toNat_natCast]
      simp only [buildKeydirLoop]
      rw [if_neg (by rw [ge_iff_le, hfl]; omega)]
      simp only [hre]
      rw [if_neg (by omega)]
      simp only [h64, h32]
      have hplen : (pre ++ encEntry k (some x)).length
          = pre.length + (8 + k.length + x.length) := by
        simp only [List.length_append, encEntry_length, Option.getD_some]
      rw [show pre.length + 8 + k.length + x.length
          = (pre ++ encEntry k (some x)).length by omega]
      rw [show pre ++ (encEntry k (some x) ++ logOf rest)
          = (pre ++ encEntry k (some x)) ++ logOf rest from (List.append_assoc _ _ _).symm]
      have hrhs : replayFold kd pre.length (DOp.set k x :: rest)
          = replayFold (Smap.insert k (pre.length + 8 + k.length, x.length) kd)
              (pre.length + (8 + k.length + x.length)) rest := rfl
      rw [hrhs]
      rw [show pre.length + (8 + k.length + x.length)
          = (pre ++ encEntry k (some x)).length by omega]
      exact ih f (pre ++ encEntry k (some x)) _ hwtail (by omega)
    | del k =>
      have hkl : k.length < 2 ^ 32 := hwf _ (List.mem_cons_self _ _)
      have hlog : logOf (DOp.del k :: rest) = encEntry k none ++ logOf rest := rfl
      rw [hlog]
      have hre : readEntry (pre ++ (encEntry k none ++ logOf rest)) pre.length
          = some (k, (-1 : Int)) := by
        have h := readEntry_at pre k none (logOf rest) hkl (by intro y hy; cases hy)
        simpa using h
      have hfl : (pre ++ (encEntry k none ++ logOf rest)).length
          = pre.length + ((8 + k.length) + (logOf rest).length) := by
        simp only [List.length_append, encEntry_length, Option.getD_none, List.length_nil]; omega
      simp only [buildKeydirLoop]
      rw [if_neg (by rw [ge_iff_le, hfl]; omega)]
      simp only [hre, if_true]
      have hplen : (pre ++ encEntry k none).length
          = pre.length + (8 + k.length) := by
        simp only [List.length_append, encEntry_length, Option.getD_none, List.length_nil]; omega
      rw [show pre.length + 8 + k.length = (pre ++ encEntry k none).length by omega]
      rw [show pre ++ (encEntry k none ++ logOf rest)
          = (pre ++ encEntry k none) ++ logOf rest from (List.append_assoc _ _ _).symm]
      have hrhs : replayFold kd pre.length (DOp.del k :: rest)
          = replayFold (Smap.erase k kd) (pre.length + (8 + k.length)) rest := rfl
      rw [hrhs]
      rw [show pre.length + (8 + k.length) = (pre ++ encEntry k none).length by omega]
      exact ih f (pre ++ encEntry k none) _ hwtail (by omega)

/-- Folding engine operations accumulates exactly the framed records in
the log, and the keydir the engine maintains is the replay fold. -/
theorem applyDiskOps_spec (ops : List DOp) : ∀ d : DiskEngine,
    (applyDiskOps d ops).log = d.log ++ logOf ops ∧
    (applyDiskOps d ops).keydir = replayFold d.keydir d.log.length ops := by
  induction ops with
  | nil => intro d; simp [applyDiskOps, logOf, replayFold]
  | cons op rest ih =>
    intro d
    cases op with
    | set k v =>
      have h1 := ih (diskSet d k v)
      have e1 : (diskSet d k v).keydir
          = Smap.insert k (d.log.length + 8 + k.length, v.length) d.keydir := by
        simp only [diskSet]
        rw [show d.log.length + (8 + k.length + v.length) - v.length
            = d.log.length + 8 + k.length by omega]
      have e2 : (diskSet d k v).log.length
          = d.log.length + (8 + k.length + v.length) := by
        simp only [diskSet, List.length_append, encEntry_length, Option.getD_some]
      constructor
      · show (applyDiskOps (diskSet d k v) rest).log = _
        rw [h1.1]
        show (d.log ++ encEntry k (some v)) ++ logOf rest = _
        rw [List.append_assoc]
        rfl
      · show (applyDiskOps (diskSet d k v) rest).keydir = _
        rw [h1.2, e1, e2]
        rfl
    | del k =>
      have h1 := ih (diskDelete d k)
      have e2 : (diskDelete d k).log.length = d.log.length + (8 + k.length) := by
        simp only [diskDelete, List.length_append, encEntry_length,
          Option.getD_none, List.length_nil]
        omega
      constructor
      · show (applyDiskOps (diskDelete d k) rest).log = _
        rw [h1.1]
        show (d.log ++ encEntry k none) ++ logOf rest = _
        rw [List.append_assoc]
        rfl
      · show (applyDiskOps (diskDelete d k) rest).keydir = _
        rw [h1.2, e2]
        rfl

theorem Smap.map_insert {α β : Type} (g : α → β) (k : List Nat) (x : α) :
    ∀ m : Smap α, (Smap.insert k x m).map (fun e => (e.1, g e.2))
      = Smap.insert k (g x) (m.map (fun e => (e.1, g e.2))) := by
  intro m
  induction m with
  | nil => rfl
  | cons e rest ih =>
    obtain ⟨ke, ve⟩ := e
    by_cases h1 : lexLt k ke
    · simp [Smap.insert, h1]
    · by_cases h2 : k = ke
      · subst h2; simp [Smap.insert, h1]
      · simp [Smap.insert, h1, h2, ih]

theorem Smap.map_erase {α β : Type} (g : α → β) (k : List Nat) :
    ∀ m : Smap α, (Smap.erase k m).map (fun e => (e.1, g e.2))
      = Smap.erase k (m.map (fun e => (e.1, g e.2))) := by
  intro m
  induction m with
  | nil => rfl
  | cons e rest ih =>
    obtain ⟨ke, ve⟩ := e
    by_cases h1 : k = ke
    · subst h1; simp [Smap.erase]
    · simp [Smap.erase, h1, ih]

theorem Smap.get?_map {α β : Type} (g : α → β) (k : List Nat) :
    ∀ m : Smap α, Smap.get? (m.map (fun e => (e.1, g e.2))) k
      = (Smap.get? m k).map g := by
  intro m
  induction m with
  | nil => rfl
  | cons e rest ih =>
    obtain ⟨ke, ve⟩ := e
    by_cases h1 : k = ke
    · subst h1; simp [Smap.get?]
    · simp [Smap.get?, h1, ih]

theorem Smap.sorted_map {α β : Type} (g : α → β) {m : Smap α}
    (hs : m.Sorted) : Smap.Sorted (m.map (fun e => (e.1, g e.2))) := by
  refine List.pairwise_map.mpr ?_
  exact hs.imp (fun h => h)

theorem mapM_eq_some_map {α β : Type} (f : α → Option β) (g : α → β) :
    ∀ l : List α, (∀ e ∈ l, f e = some (g e)) → l.mapM f = some (l.map g) := by
  intro l
  induction l with
  | nil => intro _; rfl
  | cons e rest ih =>
    intro h
    rw [List.mapM_cons, h e (List.mem_cons_self _ _),
      ih (fun x hx => h x (List.mem_cons_of_mem _ hx))]
    rfl

theorem diskMemRel_empty : diskMemRel (DiskEngine.mk [] []) [] := by
  refine ⟨List.Pairwise.nil, ?_, rfl⟩
  intro e he
  simp at he

theorem diskMemRel_set {d : DiskEngine} {m : Mem} (h : diskMemRel d m)
    (k v : List Nat) : diskMemRel (diskSet d k v) (memSet m k v) := by
  obtain ⟨hs, hb, hm⟩ := h
  refine ⟨Smap.sorted_insert hs _ _, ?_, ?_⟩
  · intro e he
    rcases Smap.mem_insert_sorted hs he with rfl | ⟨hmem, -⟩
    · show d.log.length + (8 + k.length + v.length) - v.length + v.length
          ≤ (d.log ++ encEntry k (some v)).length
      simp only [List.length_append, encEntry_length, Option.getD_some]
      omega
    · have hbe := hb e hmem
      show e.2.1 + e.2.2 ≤ (d.log ++ encEntry k (some v)).length
      simp only [List.length_append]
      omega
  · show Smap.insert k v m
        = ((Smap.insert k (d.log.length + (8 + k.length + v.length) - v.length,
            v.length) d.keydir).map
          (fun e => (e.1, (((d.log ++ encEntry k (some v)).drop e.2.1).take e.2.2))))
    have step := Smap.map_insert
      (fun p : Nat × Nat => ((d.log ++ encEntry k (some v)).drop p.1).take p.2)
      k (d.log.length + (8 + k.length + v.length) - v.length, v.length) d.keydir
    refine Eq.trans ?_ step.symm
    simp only []
    rw [slice_set_self]
    rw [hm]
    congr 1
    apply List.map_congr_left
    intro e he
    have hbe := hb e he
    show (e.1, (d.log.drop e.2.1).take e.2.2)
        = (e.1, ((d.log ++ encEntry k (some v)).drop e.2.1).take e.2.2)
    rw [slice_append _ hbe]

theorem diskMemRel_del {d : DiskEngine} {m : Mem} (h : diskMemRel d m)
    (k : List Nat) : diskMemRel (diskDelete d k) (memDelete m k) := by
  obtain ⟨hs, hb, hm⟩ := h
  refine ⟨Smap.sorted_erase hs _, ?_, ?_⟩
  · intro e he
    have hbe := hb e (Smap.mem_erase he)
    show e.2.1 + e.2.2 ≤ (d.log ++ encEntry k none).length
    simp only [List.length_append]
    omega
  · show Smap.erase k m
        = ((Smap.erase k d.keydir).map
          (fun e => (e.1, (((d.log ++ encEntry k none).drop e.2.1).take e.2.2))))
    have step := Smap.map_erase
      (fun p : Nat × Nat => ((d.log ++ encEntry k none).drop p.1).take p.2)
      k d.keydir
    refine Eq.trans ?_ step.symm
    rw [hm]
    congr 1
    apply List.map_congr_left
    intro e he
    have hbe := hb e he
    show (e.1, (d.log.drop e.2.1).take e.2.2)
        = (e.1, ((d.log ++ encEntry k none).drop e.2.1).take e.2.2)
    rw [slice_append _ hbe]

theorem diskMemRel_ops (ops : List DOp) : ∀ (d : DiskEngine) (m : Mem),
    diskMemRel d m → diskMemRel (applyDiskOps d ops) (applyMemOps m ops) := by
  induction ops with
  | nil => intro d m h; exact h
  | cons op rest ih =>
    intro d m h
    cases op with
    | set k v => exact ih _ _ (diskMemRel_set h k v)
    | del k => exact ih _ _ (diskMemRel_del h k)

theorem diskMemRel_get {d : DiskEngine} {m : Mem} (h : diskMemRel d m)
    (k : List Nat) : diskGet d k = some (memGet m k) := by
  obtain ⟨hs, hb, hm⟩ := h
  have hget := Smap.get?_map
    (fun p : Nat × Nat => (d.log.drop p.1).take p.2) k d.keydir
  unfold diskGet memGet
  rw [hm]
  cases hg : Smap.get? d.keydir k with
  | none =>
    rw [hg] at hget
    simp only [hg, Option.map_none]
    show some none = some (Smap.get? _ k)
    rw [hget]
    rfl
  | some p =>
    have hmem : (k, p) ∈ d.keydir := Smap.mem_of_get? hg
    have hbp := hb (k, p) hmem
    rw [hg] at hget
    simp only [hg]
    show (readValue d.log p.1 p.2).map some = some (Smap.get? _ k)
    rw [hget]
    unfold readValue
    rw [if_pos hbp]
    rfl

theorem diskMemRel_snapshot {d : DiskEngine} {m : Mem} (h : diskMemRel d m) :
    diskSnapshot d = some m := by
  obtain ⟨hs, hb, hm⟩ := h
  rw [hm]
  unfold diskSnapshot
  apply mapM_eq_some_map
  intro e he
  unfold readValue
  rw [if_pos (hb e he)]
  rfl

/-- C5 (log replay): for every well-formed sequence of `set`/`delete`
operations applied to a fresh disk engine, `Log::build_keydir` replayed
from offset 0 over the resulting log file rebuilds exactly the engine's
own index, and the key-to-value mapping the disk engine exposes equals
the mapping obtained by applying the same sequence to an empty
in-memory engine. -/
theorem disk_log_replay (ops : List DOp) (hwf : ∀ o ∈ ops, o.Wf) :
    buildKeydir (applyDiskOps (DiskEngine.mk [] []) ops).log
        = some (applyDiskOps (DiskEngine.mk [] []) ops).keydir ∧
    ∀ k, diskGet (applyDiskOps (DiskEngine.mk [] []) ops) k
        = some (memGet (applyMemOps [] ops) k) := by
  have hspec := applyDiskOps_spec ops (DiskEngine.mk [] [])
  constructor
  · have h1 : (applyDiskOps (DiskEngine.mk [] []) ops).log = logOf ops := by
      rw [hspec.1]; rfl
    have h2 : (applyDiskOps (DiskEngine.mk [] []) ops).keydir
        = replayFold [] 0 ops := hspec.2
    rw [h1, h2]
    unfold buildKeydir
    have h3 := buildKeydirLoop_replay ops ((logOf ops).length + 1) [] [] hwf
      (by have := logOf_length_ge ops; omega)
    simpa using h3
  · intro k
    exact diskMemRel_get (diskMemRel_ops ops _ _ diskMemRel_empty) k

theorem disk_log_replay_witness :
    (∀ o ∈ [DOp.set [1] [10], DOp.set [2] [20, 21], DOp.del [1],
        DOp.set [2] [22]], DOp.Wf o) ∧
    (buildKeydir (applyDiskOps (DiskEngine.mk [] [])
          [DOp.set [1] [10], DOp.set [2] [20, 21], DOp.del [1],
            DOp.set [2] [22]]).log
        = some (applyDiskOps (DiskEngine.mk [] [])
            [DOp.set [1] [10], DOp.set [2] [20, 21], DOp.del [1],
              DOp.set [2] [22]]).keydir ∧
      ∀ k, diskGet (applyDiskOps (DiskEngine.mk [] [])
            [DOp.set [1] [10], DOp.set [2] [20, 21], DOp.del [1],
              DOp.set [2] [22]]) k
          = some (memGet (applyMemOps []
              [DOp.set [1] [10], DOp.set [2] [20, 21], DOp.del [1],
                DOp.set [2] [22]]) k)) :=
  ⟨by decide, disk_log_replay _ (by decide)⟩

/-- Inserting a key greater than every key of the map appends at the
end (compaction and replay insert live keys in ascending order). -/
theorem Smap.insert_append {α : Type} {m : Smap α} {k : List Nat} (v : α)
    (h : ∀ e ∈ m, lexLt e.1 k = true) : Smap.insert k v m = m ++ [(k, v)] := by
  induction m with
  | nil => rfl
  | cons e rest ih =>
    obtain ⟨ke, ve⟩ := e
    have hk : lexLt ke k = true := h (ke, ve) (List.mem_cons_self _ _)
    have h1 : ¬ (lexLt k ke = true) := by
      rw [lexLt_asymm hk]; simp
    have h2 : ¬ (k = ke) := by
      rintro rfl
      rw [lexLt_irrefl] at hk
      exact absurd hk (by simp)
    simp only [Smap.insert, if_neg h1, if_neg h2]
    rw [ih (fun e he => h e (List.mem_cons_of_mem _ he))]
    rfl

/-- Applying `set` commands with strictly ascending keys to a memory
engine appends the corresponding pairs in order. -/
theorem applyMemOps_map_set (g : List Nat → Nat × Nat → List Nat) :
    ∀ (L : Smap (Nat × Nat)) (acc : Mem),
    L.Sorted → (∀ a ∈ acc, ∀ b ∈ L, lexLt a.1 b.1 = true) →
    applyMemOps acc (L.map (fun e => DOp.set e.1 (g e.1 e.2)))
      = acc ++ L.map (fun e => (e.1, g e.1 e.2)) := by
  intro L
  induction L with
  | nil => intro acc _ _; simp [applyMemOps]
  | cons e rest ih =>
    intro acc hsort hlt
    obtain ⟨ke, ve⟩ := e
    obtain ⟨hhead, htail⟩ := List.pairwise_cons.mp hsort
    have hacc : Smap.insert ke (g ke ve) acc = acc ++ [(ke, g ke ve)] :=
      Smap.insert_append _ (fun a ha => hlt a ha (ke, ve) (List.mem_cons_self _ _))
    have hstep : applyMemOps acc
          (DOp.set ke (g ke ve) :: rest.map (fun e => DOp.set e.1 (g e.1 e.2)))
        = applyMemOps (acc ++ [(ke, g ke ve)])
            (rest.map (fun e => DOp.set e.1 (g e.1 e.2))) := by
      show applyMemOps (Smap.insert ke (g ke ve) acc) _ = _
      rw [hacc]
    simp only [List.map_cons]
    rw [hstep]
    rw [ih (acc ++ [(ke, g ke ve)]) htail ?_]
    · simp [List.append_assoc]
    · intro a ha b hb
      rcases List.mem_append.mp ha with ha | ha
      · exact hlt a ha b (List.mem_cons_of_mem _ hb)
      · have : a = (ke, g ke ve) := by simpa using ha
        rw [this]
        exact hhead b hb

/-- The fold inside `DiskEngine::compact` is the same as replaying one
fresh `set` per live index entry, in index order. -/
theorem diskCompact_eq (log : List Nat) :
    ∀ (L : Smap (Nat × Nat)) (d0 : DiskEngine),
    (∀ e ∈ L, e.2.1 + e.2.2 ≤ log.length) →
    L.foldl
      (fun acc e =>
        acc.bind (fun p =>
          (readValue log e.2.1 e.2.2).map (fun value =>
            DiskEngine.mk
              (p.keydir.insert e.1
                (p.log.length + (8 + e.1.length + value.length) - e.2.2,
                  e.2.2))
              (p.log ++ encEntry e.1 (some value)))))
      (some d0)
    = some (applyDiskOps d0 (L.map (fun e =>
        DOp.set e.1 ((log.drop e.2.1).take e.2.2)))) := by
  intro L
  induction L with
  | nil => intro d0 _; simp [applyDiskOps]
  | cons e rest ih =>
    intro d0 hb
    obtain ⟨ke, off, sz⟩ := e
    have hbe : off + sz ≤ log.length := hb _ (List.mem_cons_self _ _)
    have hrv : readValue log off sz = some ((log.drop off).take sz) := by
      unfold readValue
      rw [if_pos hbe]
    have hvl : ((log.drop off).take sz).length = sz := by
      simp only [List.length_take, List.length_drop]
      omega
    simp only [List.foldl_cons, List.map_cons, Option.some_bind, hrv,
      Option.map_some']
    have hmk : DiskEngine.mk
        (d0.keydir.insert ke
          (d0.log.length + (8 + ke.length + ((log.drop off).take sz).length) - sz,
            sz))
        (d0.log ++ encEntry ke (some ((log.drop off).take sz)))
        = diskSet d0 ke ((log.drop off).take sz) := by
      unfold diskSet
      rw [hvl]
    rw [hmk]
    show _ = some (applyDiskOps (diskSet d0 ke ((log.drop off).take sz))
      (rest.map (fun e => DOp.set e.1 ((log.drop e.2.1).take e.2.2))))
    exact ih _ (fun x hx => hb x (List.mem_cons_of_mem _ hx))

/-- The log written by a list of `set` commands is one framed record
per command. -/
theorem logOf_map_set {γ : Type} (key val : γ → List Nat) :
    ∀ L : List γ, logOf (L.map (fun e => DOp.set (key e) (val e)))
      = (L.map (fun e => encEntry (key e) (some (val e)))).flatten := by
  intro L
  induction L with
  | nil => rfl
  | cons e rest ih => simp [logOf, ih]

/-- C6 (compaction preserves state): for every disk-engine state
with a sorted index whose entries all lie inside the log, `compact()`
succeeds; afterwards `get` returns the same result for every key, a
full `scan` materializes the same pairs, and the new log file is
exactly one freshly framed `set` record per live key, in index (key)
order, with no tombstones. -/
theorem disk_compact_preserves (d : DiskEngine) (hs : d.keydir.Sorted)
    (hb : ∀ e ∈ d.keydir, e.2.1 + e.2.2 ≤ d.log.length) :
    ∃ d', diskCompact d = some d' ∧
      (∀ k, diskGet d' k = diskGet d k) ∧
      diskSnapshot d' = diskSnapshot d ∧
      d'.log = (d.keydir.map (fun e =>
          encEntry e.1 (some ((d.log.drop e.2.1).take e.2.2)))).flatten := by
  refine ⟨applyDiskOps (DiskEngine.mk [] []) (d.keydir.map (fun e =>
      DOp.set e.1 ((d.log.drop e.2.1).take e.2.2))), ?_, ?_, ?_, ?_⟩
  · show diskCompact d = _
    unfold diskCompact
    exact diskCompact_eq d.log d.keydir (DiskEngine.mk [] []) hb
  · intro k
    have hrel : diskMemRel
        (applyDiskOps (DiskEngine.mk [] []) (d.keydir.map (fun e =>
          DOp.set e.1 ((d.log.drop e.2.1).take e.2.2))))
        (applyMemOps [] (d.keydir.map (fun e =>
          DOp.set e.1 ((d.log.drop e.2.1).take e.2.2)))) :=
      diskMemRel_ops _ _ _ diskMemRel_empty
    have hrel0 : diskMemRel d
        (d.keydir.map (fun e => (e.1, (d.log.drop e.2.1).take e.2.2))) :=
      ⟨hs, hb, rfl⟩
    have hmm : applyMemOps [] (d.keydir.map (fun e =>
          DOp.set e.1 ((d.log.drop e.2.1).take e.2.2)))
        = d.keydir.map (fun e => (e.1, (d.log.drop e.2.1).take e.2.2)) := by
      have h := applyMemOps_map_set
        (fun ke p => (d.log.drop p.1).take p.2) d.keydir [] hs
        (by intro a ha; simp at ha)
      simpa using h
    rw [diskMemRel_get hrel k, diskMemRel_get hrel0 k, hmm]
  · have hrel : diskMemRel
        (applyDiskOps (DiskEngine.mk [] []) (d.keydir.map (fun e =>
          DOp.set e.1 ((d.log.drop e.2.1).take e.2.2))))
        (applyMemOps [] (d.keydir.map (fun e =>
          DOp.set e.1 ((d.log.drop e.2.1).take e.2.2)))) :=
      diskMemRel_ops _ _ _ diskMemRel_empty
    have hrel0 : diskMemRel d
        (d.keydir.map (fun e => (e.1, (d.log.drop e.2.1).take e.2.2))) :=
      ⟨hs, hb, rfl⟩
    have hmm : applyMemOps [] (d.keydir.map (fun e =>
          DOp.set e.1 ((d.log.drop e.2.1).take e.2.2)))
        = d.keydir.map (fun e => (e.1, (d.log.drop e.2.1).take e.2.2)) := by
      have h := applyMemOps_map_set
        (fun ke p => (d.log.drop p.1).take p.2) d.keydir [] hs
        (by intro a ha; simp at ha)
      simpa using h
    rw [diskMemRel_snapshot hrel, diskMemRel_snapshot hrel0, hmm]
  · have hlog := (applyDiskOps_spec (d.keydir.map (fun e =>
        DOp.set e.1 ((d.log.drop e.2.1).take e.2.2))) (DiskEngine.mk [] [])).1
    rw [hlog]
    show [] ++ _ = _
    rw [List.nil_append]
    exact logOf_map_set (fun e => e.1) (fun e => (d.log.drop e.2.1).take e.2.2)
      d.keydir

theorem disk_compact_preserves_witness :
    Smap.Sorted ([([1], (9, 2)), ([2], (20, 1))] : Smap (Nat × Nat)) ∧
    (∀ e ∈ ([([1], (9, 2)), ([2], (20, 1))] : Smap (Nat × Nat)),
      e.2.1 + e.2.2 ≤ (encEntry [1] (some [7, 8]) ++ encEntry [2] (some [9])).length) ∧
    (∃ d', diskCompact (DiskEngine.mk [([1], (9, 2)), ([2], (20, 1))]
          (encEntry [1] (some [7, 8]) ++ encEntry [2] (some [9]))) = some d' ∧
      (∀ k, diskGet d' k = diskGet (DiskEngine.mk [([1], (9, 2)), ([2], (20, 1))]
          (encEntry [1] (some [7, 8]) ++ encEntry [2] (some [9]))) k) ∧
      diskSnapshot d' = diskSnapshot (DiskEngine.mk [([1], (9, 2)), ([2], (20, 1))]
          (encEntry [1] (some [7, 8]) ++ encEntry [2] (some [9]))) ∧
      d'.log = (([([1], (9, 2)), ([2], (20, 1))] : Smap (Nat × Nat)).map (fun e =>
          encEntry e.1 (some (((encEntry [1] (some [7, 8]) ++ encEntry [2] (some [9])).drop e.2.1).take e.2.2)))).flatten) :=
  ⟨by decide, by decide,
    disk_compact_preserves (DiskEngine.mk [([1], (9, 2)), ([2], (20, 1))]
      (encEntry [1] (some [7, 8]) ++ encEntry [2] (some [9])))
      (by decide) (by decide)⟩

/-- C9 (delete on a missing key): for both engines, deleting a key
that is not present is a no-op and total (both modelled `delete`s are
plain functions: the Rust counterparts return `Ok` unconditionally
when the key is absent).  The memory engine is left literally
unchanged; the disk engine keeps its index unchanged (only a tombstone
record is appended to the log), and `get` and a full `scan` return the
same results for every key afterwards. -/
theorem delete_missing_noop (m : Mem) (d : DiskEngine) (k : List Nat)
    (hm : memGet m k = none)
    (hd : Smap.get? d.keydir k = none)
    (hb : ∀ e ∈ d.keydir, e.2.1 + e.2.2 ≤ d.log.length) :
    memDelete m k = m ∧
    (diskDelete d k).keydir = d.keydir ∧
    (∀ k', diskGet (diskDelete d k) k' = diskGet d k') ∧
    diskSnapshot (diskDelete d k) = diskSnapshot d := by
  have hkd : (diskDelete d k).keydir = d.keydir :=
    Smap.erase_of_get?_none hd
  refine ⟨Smap.erase_of_get?_none hm, hkd, ?_, ?_⟩
  · intro k'
    unfold diskGet
    rw [hkd]
    cases hg : Smap.get? d.keydir k' with
    | none => rfl
    | some p =>
      have hbp : p.1 + p.2 ≤ d.log.length := hb (k', p) (Smap.mem_of_get? hg)
      have hstable : readValue (diskDelete d k).log p.1 p.2
          = readValue d.log p.1 p.2 := by
        show readValue (d.log ++ encEntry k none) p.1 p.2 = _
        unfold readValue
        rw [if_pos hbp, if_pos (by simp only [List.length_append]; omega)]
        rw [slice_append _ hbp]
      show (readValue (diskDelete d k).log p.1 p.2).map some
          = (readValue d.log p.1 p.2).map some
      rw [hstable]
  · unfold diskSnapshot
    rw [hkd]
    have h1 : List.mapM (fun e => (readValue d.log e.2.1 e.2.2).map
          (fun v => (e.1, v))) d.keydir
        = some (d.keydir.map (fun e => (e.1, (d.log.drop e.2.1).take e.2.2))) := by
      apply mapM_eq_some_map
      intro e he
      unfold readValue
      rw [if_pos (hb e he)]
      rfl
    have h2 : List.mapM (fun e => (readValue (diskDelete d k).log e.2.1 e.2.2).map
          (fun v => (e.1, v))) d.keydir
        = some (d.keydir.map (fun e => (e.1, (d.log.drop e.2.1).take e.2.2))) := by
      apply mapM_eq_some_map
      intro e he
      have hbe := hb e he
      show ((readValue (d.log ++ encEntry k none) e.2.1 e.2.2).map _) = _
      unfold readValue
      rw [if_pos (by simp only [List.length_append]; omega)]
      rw [slice_append _ hbe]
      rfl
    rw [h1, h2]

theorem delete_missing_noop_witness :
    memGet [([1], [9])] [2] = none ∧
    Smap.get? (DiskEngine.mk [([1], (9, 1))] (encEntry [1] (some [9]))).keydir [2] = none ∧
    (∀ e ∈ (DiskEngine.mk [([1], (9, 1))] (encEntry [1] (some [9]))).keydir,
      e.2.1 + e.2.2 ≤ (DiskEngine.mk [([1], (9, 1))] (encEntry [1] (some [9]))).log.length) ∧
    (memDelete [([1], [9])] [2] = [([1], [9])] ∧
      (diskDelete (DiskEngine.mk [([1], (9, 1))] (encEntry [1] (some [9]))) [2]).keydir
        = (DiskEngine.mk [([1], (9, 1))] (encEntry [1] (some [9]))).keydir ∧
      (∀ k', diskGet (diskDelete (DiskEngine.mk [([1], (9, 1))] (encEntry [1] (some [9]))) [2]) k'
        = diskGet (DiskEngine.mk [([1], (9, 1))] (encEntry [1] (some [9]))) k') ∧
      diskSnapshot (diskDelete (DiskEngine.mk [([1], (9, 1))] (encEntry [1] (some [9]))) [2])
        = diskSnapshot (DiskEngine.mk [([1], (9, 1))] (encEntry [1] (some [9])))) :=
  ⟨by decide, by decide, by decide,
    delete_missing_noop [([1], [9])]
      (DiskEngine.mk [([1], (9, 1))] (encEntry [1] (some [9]))) [2]
      (by decide) (by decide) (by decide)⟩

end SharkDB
